import Mathlib

/-!
# Verification of the circuitbuilder analysis engine

A shallow embedding of the repository's analysis engine:

* `extractNodes` (src/engine/graph.ts, provided as an unnamed source file):
  union-find over wire connections, grouping of terminals into electrical
  nodes, descending-size ordering and sequential id assignment.
* `solveCircuit` (src/engine/solver.ts): Modified Nodal Analysis assembly,
  direct inversion of the assembled matrix, and derived per-element
  currents and power.

Numbers are modelled by `ℚ` (the source computes in JavaScript doubles;
every claim under study is an exact algebraic statement, stated in the
spec "within floating tolerance", which the exact model settles).
JavaScript `Map`/`Record` values are modelled by association lists in
insertion order, and the mutable `mathjs` matrix by a total function
`ℕ → ℕ → ℚ` updated pointwise, exactly mirroring the `A.set`/`A.get`
call sequence of the source.

The union-find of `extractNodes` is modelled at the level of the
partition it maintains: `getParent` returns the root of the class of an
id, and two ids have equal roots precisely when their classes have been
merged; path compression mutates parent links but never changes any
root.  The embedding therefore carries the partition itself (a list of
disjoint classes) and `ufUnion` merges the two classes of the given ids,
which is exactly the effect of `union` in the source.
-/

namespace Circuit

/-- A terminal of a circuit element.  The source's `Terminal` also
carries the owning element id, a display name and a position, none of
which the analysis engine reads; only the identity `id` is modelled. -/
structure Terminal where
  id : String
deriving DecidableEq, Repr

/-- The four element kinds of `ElementType` in `types/circuit`. -/
inductive ElementType where
  | Resistor
  | VoltageSource
  | CurrentSource
  | VCVS
deriving DecidableEq, Repr

/-- A circuit element.  The source's `CircuitElement` also carries a
position, rotation and label used only by the canvas; the engine reads
`id`, `type`, `value` and `terminals`. -/
structure CircuitElement where
  id : String
  type : ElementType
  value : ℚ
  terminals : List Terminal
deriving DecidableEq, Repr

/-- A wire.  The source's `Wire` also carries an id and drawing points;
the engine reads only the two optional endpoint terminal ids.  A missing
endpoint (`undefined` in the source) is `none`. -/
structure Wire where
  startTerminalId : Option String := none
  endTerminalId : Option String := none
deriving DecidableEq, Repr

/-- An electrical node: an equivalence class of terminals with an
integer id (`ElectricalNode` in the source). -/
structure ElectricalNode where
  id : Int
  terminals : List Terminal
deriving DecidableEq, Repr

/-! ## Topology extraction (`extractNodes`) -/

/-- Step 1 of `extractNodes`: `elements.flatMap(e => e.terminals)`. -/
def allTerminals (elements : List CircuitElement) : List Terminal :=
  elements.foldr (fun e acc => e.terminals ++ acc) []

/-- JavaScript truthiness of an optional string: `undefined`, `null`
and the empty string are falsy.  The source guards each wire with
`wire.startTerminalId && wire.endTerminalId`. -/
def truthy : Option String → Bool
  | none => false
  | some s => s ≠ ""

/-- The endpoint pairs of the wires that participate in extraction:
those whose both endpoint ids are bound (step 3 of `extractNodes`). -/
def wirePairs (wires : List Wire) : List (String × String) :=
  wires.filterMap fun w =>
    match w.startTerminalId, w.endTerminalId with
    | some s, some e => if s ≠ "" ∧ e ≠ "" then some (s, e) else none
    | _, _ => none

/-- The partition maintained by the disjoint-set: a list of merged
classes of terminal ids.  Ids not occurring in any class are implicit
singletons (in the source: ids absent from the `parent` map). -/
abbrev UFPartition := List (List String)

/-- The class of `a` in the partition, the implicit singleton `[a]` when
`a` has not been merged with anything.  Two ids receive equal keys
exactly when `getParent` returns equal roots in the source. -/
def keyOf (p : UFPartition) (a : String) : List String :=
  match p.find? (fun c => a ∈ c) with
  | some c => c
  | none => [a]

/-- `union(id1, id2)` of the source: if the two ids have distinct roots,
merge their classes (the source re-points `root1` to `root2`; on the
partition this replaces the two classes by their union). -/
def ufUnion (p : UFPartition) (a b : String) : UFPartition :=
  let ca := keyOf p a
  let cb := keyOf p b
  if ca = cb then p
  else (p.filter fun c => c ≠ ca ∧ c ≠ cb) ++ [ca ++ cb]

/-- The partition after processing every fully-bound wire, in order
(step 3 of `extractNodes`). -/
def finalPartition (wires : List Wire) : UFPartition :=
  (wirePairs wires).foldl (fun p q => ufUnion p q.1 q.2) []

/-- One step of the grouping loop of `extractNodes` (step 4): file the
terminal under its root — append it to the group keyed by its root if
one exists, otherwise open a new group at the end (the insertion-order
behaviour of the source's `nodeGroups` map). -/
def groupStep (p : UFPartition) (groups : List (List String × List Terminal))
    (t : Terminal) : List (List String × List Terminal) :=
  let k := keyOf p t.id
  if groups.any (fun g => g.1 = k) then
    groups.map (fun g => if g.1 = k then (g.1, g.2 ++ [t]) else g)
  else groups ++ [(k, [t])]

/-- Step 4 of `extractNodes`: group the terminals by their root, in
first-occurrence order, each group keeping terminal traversal order
(the source's insertion-ordered `nodeGroups : Map<string, Terminal[]>`,
keyed here by the class standing for the root). -/
def groupTerminals (p : UFPartition) (ts : List Terminal) :
    List (List String × List Terminal) :=
  ts.foldl (groupStep p) []

/-- Stable insertion of a node into a list sorted by descending terminal
count: the node goes after every node with at least as many terminals.
`Array.prototype.sort` with comparator
`(a, b) => b.terminals.length - a.terminals.length` is a stable sort
(ECMAScript 2019), and a stable sort's output is uniquely determined by
the comparator, so this structural insertion sort computes it. -/
def insertDesc (n : ElectricalNode) : List ElectricalNode → List ElectricalNode
  | [] => [n]
  | m :: rest =>
    if m.terminals.length < n.terminals.length then n :: m :: rest
    else m :: insertDesc n rest

/-- Stable sort by descending terminal count (step 5 of `extractNodes`):
insert each node, in order, after every already-placed node of at least
its size. -/
def sortDesc (l : List ElectricalNode) : List ElectricalNode :=
  l.foldl (fun acc n => insertDesc n acc) []

/-- Assign sequential ids 0, 1, 2, … in sorted order
(`nodesData.map((node, i) => ({...node, id: i}))`). -/
def assignIds (l : List ElectricalNode) : List ElectricalNode :=
  (l.enum).map fun p => { p.2 with id := (p.1 : Int) }

/-- `extractNodes` of the source: union-find over the fully-bound wires,
grouping of all element terminals by root, descending-size sort, and
sequential id assignment (the largest group becomes ground, id 0). -/
def extractNodes (elements : List CircuitElement) (wires : List Wire) :
    List ElectricalNode :=
  let ts := allTerminals elements
  let p := finalPartition wires
  let nodesData := (groupTerminals p ts).map fun g =>
    ({ id := -1, terminals := g.2 } : ElectricalNode)
  assignIds (sortDesc nodesData)

/-- Two terminal ids joined by a chain of fully-bound wires, each wire
usable in either direction. -/
inductive Chained (pairs : List (String × String)) : String → String → Prop
  | refl (a : String) : Chained pairs a a
  | step {a b c : String} :
      ((b, c) ∈ pairs ∨ (c, b) ∈ pairs) → Chained pairs a b → Chained pairs a c

/-! ## The MNA solver (`solveCircuit`) -/

/-- The result of `solveCircuit`.  The three JavaScript records are
modelled by association lists in insertion order. -/
structure SolverResult where
  nodeVoltages : List (Int × ℚ)
  elementCurrents : List (String × ℚ)
  elementPower : List (String × ℚ)
deriving DecidableEq, Repr

/-- The empty result returned for nothing-to-solve inputs and for a
singular system. -/
def emptyResult : SolverResult := ⟨[], [], []⟩

/-- The id of terminal slot `k` of an element
(`element.terminals[k].id`).  The source never evaluates this for a
missing slot on the paths under study; the `""` fallback keeps the
function total. -/
def termId (e : CircuitElement) (k : ℕ) : String :=
  match e.terminals.get? k with
  | some t => t.id
  | none => ""

/-- `getNodeIndex` of the source: the id of the node owning a terminal
with the given id, `-1` when no node contains it. -/
def getNodeIndex (nodes : List ElectricalNode) (terminalId : String) : Int :=
  match nodes.find? (fun n => n.terminals.any fun t => t.id = terminalId) with
  | some n => n.id
  | none => -1

/-- `GMIN = 1e-12`, the leakage conductance added to every node-block
diagonal entry. -/
def GMIN : ℚ := 1 / 1000000000000

/-- The `mathjs` matrix, as a total function updated pointwise. -/
abbrev Mat := ℕ → ℕ → ℚ

/-- The right-hand-side vector `z` (a one-column `mathjs` matrix). -/
abbrev Vec := ℕ → ℚ

/-- `A.set([i, j], v)`. -/
def mset (A : Mat) (i j : ℕ) (v : ℚ) : Mat :=
  fun i' j' => if i' = i ∧ j' = j then v else A i' j'

/-- `z.set([i, 0], v)`. -/
def vset (z : Vec) (i : ℕ) (v : ℚ) : Vec :=
  fun i' => if i' = i then v else z i'

/-- The matrix row/column of a non-ground node index `t` (the source
computes `t - 1`; it only does so under a `t > 0` guard). -/
def ndx (t : Int) : ℕ := (t - 1).toNat

/-- The conductance stamp of a resistor between node indices `t1`, `t2`
(the `t1 > 0` guards skip the ground row/column, and an unresolved
index `-1` fails the same guards). -/
def resistorStamp (A : Mat) (g : ℚ) (t1 t2 : Int) : Mat :=
  let A := if t1 > 0 then mset A (ndx t1) (ndx t1) (A (ndx t1) (ndx t1) + g) else A
  let A := if t2 > 0 then mset A (ndx t2) (ndx t2) (A (ndx t2) (ndx t2) + g) else A
  if t1 > 0 ∧ t2 > 0 then
    let A := mset A (ndx t1) (ndx t2) (A (ndx t1) (ndx t2) - g)
    mset A (ndx t2) (ndx t1) (A (ndx t2) (ndx t1) - g)
  else A

/-- The right-hand-side stamp of a current source: `value` into the row
of node `tA` (current entering `tA`), `-value` into the row of `tB`. -/
def currentSourceStamp (z : Vec) (v : ℚ) (tA tB : Int) : Vec :=
  let z := if tA > 0 then vset z (ndx tA) (z (ndx tA) + v) else z
  if tB > 0 then vset z (ndx tB) (z (ndx tB) - v) else z

/-- One step of the first assembly loop (`elements.forEach`): the
conductance stamps of a resistor into `G`, and the current-source
stamps into `z`.  Other kinds leave the pair unchanged. -/
def stampGz (nodes : List ElectricalNode) (acc : Mat × Vec)
    (element : CircuitElement) : Mat × Vec :=
  match element.type with
  | ElementType.Resistor =>
    (resistorStamp acc.1 (1 / element.value)
      (getNodeIndex nodes (termId element 0))
      (getNodeIndex nodes (termId element 1)), acc.2)
  | ElementType.CurrentSource =>
    (acc.1, currentSourceStamp acc.2 element.value
      (getNodeIndex nodes (termId element 0))
      (getNodeIndex nodes (termId element 1)))
  | _ => acc

/-- The contribution of a single element to an entry of the
right-hand-side vector `z` during the first assembly loop: only current
sources contribute — `+value` into the row of the node of terminal 0
(current entering it), `-value` into the row of the node of
terminal 1. -/
def csContrib (nodes : List ElectricalNode) (element : CircuitElement) (i : ℕ) : ℚ :=
  match element.type with
  | ElementType.CurrentSource =>
    (if getNodeIndex nodes (termId element 0) > 0 ∧
        i = ndx (getNodeIndex nodes (termId element 0)) then element.value else 0) +
    (if getNodeIndex nodes (termId element 1) > 0 ∧
        i = ndx (getNodeIndex nodes (termId element 1)) then -element.value else 0)
  | _ => 0

/-- The `GMIN` loop: add the leakage conductance to every node-block
diagonal entry. -/
def addGmin (numNodes : ℕ) (A : Mat) : Mat :=
  (List.range numNodes).foldl (fun A i => mset A i i (A i i + GMIN)) A

/-- The filtered list of voltage-type sources
(`e.type === 'VoltageSource' || e.type === 'VCVS'`), in element order. -/
def vSourcesOf (elements : List CircuitElement) : List CircuitElement :=
  elements.filter fun e =>
    e.type = ElementType.VoltageSource ∨ e.type = ElementType.VCVS

/-- The B-block stamp of a voltage-type source: `+1` in the row of its
positive node, `-1` in the row of its negative node, in its own
column `vIdx` (ground and unresolved rows skipped by the guards). -/
def vsStampB (A : Mat) (vIdx : ℕ) (posNode negNode : Int) : Mat :=
  let A := if posNode > 0 then mset A (ndx posNode) vIdx 1 else A
  if negNode > 0 then mset A (ndx negNode) vIdx (-1) else A

/-- The C-block stamp shared by the independent source and the output
constraint of the VCVS: `+1` at the positive node's column, `-1` at the
negative node's column, in row `vIdx`. -/
def vsStampC (A : Mat) (vIdx : ℕ) (posNode negNode : Int) : Mat :=
  let A := if posNode > 0 then mset A vIdx (ndx posNode) 1 else A
  if negNode > 0 then mset A vIdx (ndx negNode) (-1) else A

/-- The VCVS input part of the C-block row: `-gain` and `+gain` at the
columns of the controlling nodes. -/
def vcvsStampC (A : Mat) (vIdx : ℕ) (gain : ℚ) (inPosNode inNegNode : Int) : Mat :=
  let A := if inPosNode > 0 then mset A vIdx (ndx inPosNode) (-gain) else A
  if inNegNode > 0 then mset A vIdx (ndx inNegNode) gain else A

/-- One step of the voltage-source loop (`vSources.forEach` with index):
the B-block column, the C-block row and the `z` entry of source
number `idx`. -/
def stampVS (nodes : List ElectricalNode) (numNodes : ℕ) (acc : Mat × Vec)
    (p : ℕ × CircuitElement) : Mat × Vec :=
  let idx := p.1
  let vSource := p.2
  let vIdx := numNodes + idx
  let posNode := getNodeIndex nodes (termId vSource 0)
  let negNode := getNodeIndex nodes (termId vSource 1)
  let A := vsStampB acc.1 vIdx posNode negNode
  match vSource.type with
  | ElementType.VoltageSource =>
    (vsStampC A vIdx posNode negNode, vset acc.2 vIdx vSource.value)
  | ElementType.VCVS =>
    (vcvsStampC (vsStampC A vIdx posNode negNode) vIdx vSource.value
      (getNodeIndex nodes (termId vSource 2))
      (getNodeIndex nodes (termId vSource 3)), acc.2)
  | _ => acc

/-- The fully assembled `(A, z)` pair for a node list: resistor and
current-source stamps, then `GMIN`, then the voltage-source stamps. -/
def assembleWith (nodes : List ElectricalNode) (elements : List CircuitElement) :
    Mat × Vec :=
  let numNodes := nodes.length - 1
  let gz := elements.foldl (stampGz nodes) ((fun _ _ => 0), (fun _ => 0))
  let gz := (addGmin numNodes gz.1, gz.2)
  ((vSourcesOf elements).enum.foldl (stampVS nodes numNodes) gz)

/-- The assembled `(A, z)` of `solveCircuit` on the given input. -/
def assemble (elements : List CircuitElement) (wires : List Wire) : Mat × Vec :=
  assembleWith (extractNodes elements wires) elements

/-- `A_size = numNodes + m`: the dimension of the MNA system. -/
def mnaSize (elements : List CircuitElement) (wires : List Wire) : ℕ :=
  ((extractNodes elements wires).length - 1) + (vSourcesOf elements).length

/-- The assembled matrix as a square Mathlib matrix, ready for
inversion. -/
def systemMatrix (elements : List CircuitElement) (wires : List Wire) :
    Matrix (Fin (mnaSize elements wires)) (Fin (mnaSize elements wires)) ℚ :=
  Matrix.of fun i j => (assemble elements wires).1 i.1 j.1

/-- The assembled right-hand side as a Mathlib vector. -/
def rhsVec (elements : List CircuitElement) (wires : List Wire) :
    Fin (mnaSize elements wires) → ℚ :=
  fun i => (assemble elements wires).2 i.1

/-- The matrix inverse computed by `mathjs.inv` when the matrix is
invertible: over an exact field this is `det⁻¹ • adjugate`.  (`mathjs`
throws on a singular matrix; `solveCircuit` branches on `det = 0`
instead, its `catch` branch.) -/
def matInv {n : ℕ} (M : Matrix (Fin n) (Fin n) ℚ) : Matrix (Fin n) (Fin n) ℚ :=
  M.det⁻¹ • M.adjugate

/-- The solved unknown vector `x = A⁻¹ · z`, as a total function on ℕ
(index `i < numNodes` is the voltage of node `i + 1`; index
`numNodes + k` is the branch current of voltage source `k`). -/
def solvedX (elements : List CircuitElement) (wires : List Wire) : ℕ → ℚ :=
  fun i =>
    if h : i < mnaSize elements wires then
      ((matInv (systemMatrix elements wires)).mulVec (rhsVec elements wires)) ⟨i, h⟩
    else 0

/-- The `nodeVoltages` record: `{ 0: 0 }`, then the solved voltage of
every non-ground node. -/
def nodeVoltagesOf (numNodes : ℕ) (xf : ℕ → ℚ) : List (Int × ℚ) :=
  (0, 0) :: (List.range numNodes).map fun i => (Int.ofNat i + 1, xf i)

/-- Reading `nodeVoltages[k]`.  In the source a missing key would read
as `undefined` (NaN under arithmetic); the lookup provably always
succeeds on the paths `solveCircuit` takes, so the `0` default never
reaches a result. -/
def nvGet (nv : List (Int × ℚ)) (k : Int) : ℚ :=
  (List.lookup k nv).getD 0

/-- `record[k] = v` on a JavaScript record: overwrite the entry if the
key is present, append it otherwise. -/
def recordSet (r : List (String × ℚ)) (k : String) (v : ℚ) :
    List (String × ℚ) :=
  if r.any (fun q => q.1 = k) then
    r.map fun q => if q.1 = k then (k, v) else q
  else r ++ [(k, v)]

/-- One step of the first derived-quantities loop
(`vSources.forEach` with index): branch current from `x`, and power
`-(vDelta * current)`. -/
def deriveVS (nodes : List ElectricalNode) (numNodes : ℕ) (xf : ℕ → ℚ)
    (nv : List (Int × ℚ)) (acc : List (String × ℚ) × List (String × ℚ))
    (p : ℕ × CircuitElement) : List (String × ℚ) × List (String × ℚ) :=
  let idx := p.1
  let vSource := p.2
  let current := xf (numNodes + idx)
  let posNode := getNodeIndex nodes (termId vSource 0)
  let negNode := getNodeIndex nodes (termId vSource 1)
  let vDelta := nvGet nv posNode - nvGet nv negNode
  (recordSet acc.1 vSource.id current,
   recordSet acc.2 vSource.id (-(vDelta * current)))

/-- One step of the second derived-quantities loop
(`elements.forEach`): Ohm's-law current and absolute power for a
resistor, fixed current and signed power for a current source. -/
def deriveElem (nodes : List ElectricalNode) (nv : List (Int × ℚ))
    (acc : List (String × ℚ) × List (String × ℚ))
    (element : CircuitElement) : List (String × ℚ) × List (String × ℚ) :=
  match element.type with
  | ElementType.Resistor =>
    let posNode := getNodeIndex nodes (termId element 0)
    let negNode := getNodeIndex nodes (termId element 1)
    let startV := nvGet nv posNode
    let endV := nvGet nv negNode
    let current := (startV - endV) / element.value
    (recordSet acc.1 element.id current,
     recordSet acc.2 element.id |current * current * element.value|)
  | ElementType.CurrentSource =>
    let current := element.value
    let posNode := getNodeIndex nodes (termId element 0)
    let negNode := getNodeIndex nodes (termId element 1)
    let vDelta := nvGet nv posNode - nvGet nv negNode
    (recordSet acc.1 element.id current,
     recordSet acc.2 element.id (vDelta * current))
  | _ => acc

/-- `solveCircuit` of the source: topology extraction, MNA assembly,
direct solve, derived quantities.  Returns `emptyResult` when there are
no elements, no non-ground nodes, or the assembled matrix is singular
(the `catch` branch around `mathjs.inv`). -/
def solveCircuit (elements : List CircuitElement) (wires : List Wire) :
    SolverResult :=
  if elements.isEmpty then emptyResult
  else
    let nodes := extractNodes elements wires
    let numNodes := nodes.length - 1
    if numNodes ≤ 0 then emptyResult
    else if (systemMatrix elements wires).det = 0 then emptyResult
    else
      let xf := solvedX elements wires
      let nodeVoltages := nodeVoltagesOf numNodes xf
      let vs := (vSourcesOf elements).enum
      let cp := vs.foldl (deriveVS nodes numNodes xf nodeVoltages) ([], [])
      let cp := elements.foldl (deriveElem nodes nodeVoltages) cp
      ⟨nodeVoltages, cp.1, cp.2⟩

/-- The Ohm's-law current the solver computes for a resistor:
`(startV - endV) / value`, with `startV` the voltage of the node of
terminal 0 and `endV` that of terminal 1. -/
def resistorCurrent (nodes : List ElectricalNode) (nv : List (Int × ℚ))
    (r : CircuitElement) : ℚ :=
  (nvGet nv (getNodeIndex nodes (termId r 0))
    - nvGet nv (getNodeIndex nodes (termId r 1))) / r.value

/-! ## Concrete example circuits

Example A: a 5 V source and a 2 Ω resistor joined into a single loop by
two wires.  Example N: the same topology with a 1 V source and a
(−1) Ω resistor.  Example S: two independent voltage sources (5 V and
3 V) wired across the same node pair — contradictory constraints. -/

/-- Example A: the 5 V source. -/
def elV : CircuitElement := ⟨"V1", ElementType.VoltageSource, 5, [⟨"s0"⟩, ⟨"s1"⟩]⟩

/-- Example A: the 2 Ω resistor. -/
def elR : CircuitElement := ⟨"R1", ElementType.Resistor, 2, [⟨"r0"⟩, ⟨"r1"⟩]⟩

/-- Examples A and N: the two wires joining source and resistor. -/
def wiresA : List Wire := [⟨some "s0", some "r0"⟩, ⟨some "s1", some "r1"⟩]

/-- Example A: the element list. -/
def elemsA : List CircuitElement := [elV, elR]

/-- The topology extracted in examples A and N: ground `{s0, r0}` and
one non-ground node `{s1, r1}`. -/
def nodesA : List ElectricalNode := [⟨0, [⟨"s0"⟩, ⟨"r0"⟩]⟩, ⟨1, [⟨"s1"⟩, ⟨"r1"⟩]⟩]

/-- Example N: the 1 V source. -/
def elVn : CircuitElement := ⟨"V1", ElementType.VoltageSource, 1, [⟨"s0"⟩, ⟨"s1"⟩]⟩

/-- Example N: the (−1) Ω resistor. -/
def elRn : CircuitElement := ⟨"R1", ElementType.Resistor, -1, [⟨"r0"⟩, ⟨"r1"⟩]⟩

/-- Example N: the element list. -/
def elemsN : List CircuitElement := [elVn, elRn]

/-- Example S: the 5 V source. -/
def elSV1 : CircuitElement := ⟨"V1", ElementType.VoltageSource, 5, [⟨"a0"⟩, ⟨"a1"⟩]⟩

/-- Example S: the 3 V source, across the same node pair. -/
def elSV2 : CircuitElement := ⟨"V2", ElementType.VoltageSource, 3, [⟨"b0"⟩, ⟨"b1"⟩]⟩

/-- Example S: the two wires tying the sources to the same node pair. -/
def wiresS : List Wire := [⟨some "a0", some "b0"⟩, ⟨some "a1", some "b1"⟩]

/-- Example S: the element list. -/
def elemsS : List CircuitElement := [elSV1, elSV2]

/-- The topology extracted in example S. -/
def nodesS : List ElectricalNode := [⟨0, [⟨"a0"⟩, ⟨"b0"⟩]⟩, ⟨1, [⟨"a1"⟩, ⟨"b1"⟩]⟩]

/-- Class disjointness: no id lies in both classes. -/
def ufDisj (c d : List String) : Prop := ∀ x, x ∈ c → x ∉ d

/-- The invariant of the maintained partition: classes are nonempty and
pairwise disjoint. -/
def ufInv (p : UFPartition) : Prop :=
  (∀ c ∈ p, c ≠ []) ∧ p.Pairwise ufDisj

/-- The observable state of the union-find on two ids: equal roots.  In
the embedding the root is represented by the class itself. -/
def sameKey (p : UFPartition) (x y : String) : Prop := keyOf p x = keyOf p y

/-- The invariant of the grouping loop: each group's terminals all have
the group's key as root, keys are pairwise distinct, groups are
nonempty. -/
def GroupInv (p : UFPartition) (gs : List (List String × List Terminal)) : Prop :=
  (∀ g ∈ gs, ∀ t ∈ g.2, keyOf p t.id = g.1) ∧
  gs.Pairwise (fun g h => g.1 ≠ h.1) ∧
  (∀ g ∈ gs, g.2 ≠ [])

/-! ## Sorting and id assignment -/

/-- The descending-size order used by the sort comparator. -/
def sizeGE (a b : ElectricalNode) : Prop :=
  b.terminals.length ≤ a.terminals.length

theorem insertDesc_perm (n : ElectricalNode) (l : List ElectricalNode) :
    (insertDesc n l).Perm (n :: l) := by
  induction l with
  | nil => exact List.Perm.refl _
  | cons m rest ih =>
    rw [insertDesc]
    by_cases h : m.terminals.length < n.terminals.length
    · rw [if_pos h]
    · rw [if_neg h]
      exact ((ih.cons m).trans (List.Perm.swap n m rest))

theorem sortDesc_perm (l : List ElectricalNode) : (sortDesc l).Perm l := by
  suffices h : ∀ acc : List ElectricalNode,
      (l.foldl (fun acc n => insertDesc n acc) acc).Perm (l ++ acc) by
    simpa using h []
  induction l with
  | nil => intro acc; simp
  | cons x xs ih =>
    intro acc
    rw [List.foldl_cons]
    exact (ih (insertDesc x acc)).trans
      (((insertDesc_perm x acc).append_left xs).trans List.perm_middle)

theorem insertDesc_pairwise {n : ElectricalNode} {l : List ElectricalNode}
    (h : l.Pairwise sizeGE) : (insertDesc n l).Pairwise sizeGE := by
  induction l with
  | nil => exact List.pairwise_singleton _ _
  | cons m rest ih =>
    rw [insertDesc]
    rcases List.pairwise_cons.mp h with ⟨hm, hrest⟩
    by_cases hc : m.terminals.length < n.terminals.length
    · rw [if_pos hc]
      refine List.pairwise_cons.mpr ⟨?_, h⟩
      intro x hx
      rcases List.mem_cons.mp hx with rfl | hx
      · exact le_of_lt hc
      · exact le_trans (hm x hx) (le_of_lt hc)
    · rw [if_neg hc]
      refine List.pairwise_cons.mpr ⟨?_, ih hrest⟩
      intro x hx
      rcases List.mem_cons.mp ((insertDesc_perm n rest).mem_iff.mp hx) with rfl | hx
      · exact le_of_not_lt hc
      · exact hm x hx

theorem sortDesc_pairwise (l : List ElectricalNode) :
    (sortDesc l).Pairwise sizeGE := by
  suffices h : ∀ acc : List ElectricalNode, acc.Pairwise sizeGE →
      (l.foldl (fun acc n => insertDesc n acc) acc).Pairwise sizeGE by
    exact h [] (List.Pairwise.nil)
  induction l with
  | nil => intro acc hacc; exact hacc
  | cons x xs ih =>
    intro acc hacc
    rw [List.foldl_cons]
    exact ih _ (insertDesc_pairwise hacc)

theorem assignIds_length (l : List ElectricalNode) :
    (assignIds l).length = l.length := by
  simp [assignIds]

theorem assignIds_get (l : List ElectricalNode) (i : ℕ) (hi : i < (assignIds l).length) :
    (assignIds l).get ⟨i, hi⟩ =
      { l.get ⟨i, by simpa [assignIds] using hi⟩ with id := (i : Int) } := by
  have hi' : i < l.enum.length := by simpa [assignIds] using hi
  simp only [assignIds, List.get_map]
  rw [List.get_enum]
  rfl

theorem assignIds_terminals (l : List ElectricalNode) (i : ℕ)
    (hi : i < (assignIds l).length) :
    ((assignIds l).get ⟨i, hi⟩).terminals =
      (l.get ⟨i, by simpa [assignIds] using hi⟩).terminals := by
  rw [assignIds_get]

theorem extractNodes_get_id (elements : List CircuitElement) (wires : List Wire)
    (i : ℕ) (hi : i < (extractNodes elements wires).length) :
    ((extractNodes elements wires).get ⟨i, hi⟩).id = (i : Int) := by
  simp only [extractNodes] at hi ⊢
  rw [assignIds_get]

theorem extractNodes_sorted (elements : List CircuitElement) (wires : List Wire)
    (i j : ℕ) (hi : i < (extractNodes elements wires).length)
    (hj : j < (extractNodes elements wires).length) (hij : i < j) :
    ((extractNodes elements wires).get ⟨j, hj⟩).terminals.length ≤
      ((extractNodes elements wires).get ⟨i, hi⟩).terminals.length := by
  simp only [extractNodes] at hi hj ⊢
  rw [assignIds_terminals, assignIds_terminals]
  have hs := sortDesc_pairwise
    ((groupTerminals (finalPartition wires) (allTerminals elements)).map fun g =>
      ({ id := -1, terminals := g.2 } : ElectricalNode))
  exact List.pairwise_iff_get.mp hs _ _ hij

/-- C2: `extractNodes` orders the node groups in descending order of
terminal count and assigns ids sequentially from 0; in particular for
every `i < j` the group with id `i` has at least as many terminals as
the group with id `j`, and the group stored at position `i` carries
id `i` (so the largest group carries the ground id 0). -/
theorem C2_extractNodes_descending_ids (elements : List CircuitElement)
    (wires : List Wire) :
    (∀ i (hi : i < (extractNodes elements wires).length),
      ((extractNodes elements wires).get ⟨i, hi⟩).id = (i : Int)) ∧
    (∀ i j (hi : i < (extractNodes elements wires).length)
      (hj : j < (extractNodes elements wires).length), i < j →
      ((extractNodes elements wires).get ⟨j, hj⟩).terminals.length ≤
        ((extractNodes elements wires).get ⟨i, hi⟩).terminals.length) :=
  ⟨fun i hi => extractNodes_get_id elements wires i hi,
   fun i j hi hj hij => extractNodes_sorted elements wires i j hi hj hij⟩

/-- Witness for C2 at example A: position 0 carries id 0 and at least
as many terminals as position 1. -/
theorem C2_extractNodes_descending_ids_witness :
    ((extractNodes elemsA wiresA).get ⟨0, by decide⟩).id = (0 : Int) ∧
    ((extractNodes elemsA wiresA).get ⟨1, by decide⟩).terminals.length ≤
      ((extractNodes elemsA wiresA).get ⟨0, by decide⟩).terminals.length :=
  ⟨(C2_extractNodes_descending_ids elemsA wiresA).1 0 (by decide),
   (C2_extractNodes_descending_ids elemsA wiresA).2 0 1 (by decide) (by decide)
     (by decide)⟩

/-- C8: topology extraction is deterministic and idempotent — it is a
pure function of the element and wire lists (the source reads no other
state and uses no randomness; `Map` iteration order is insertion order),
so any two runs on equal inputs return equal node lists, with the same
grouping, ordering and ground assignment. -/
theorem C8_extractNodes_deterministic (e₁ : List CircuitElement) (w₁ : List Wire)
    (e₂ : List CircuitElement) (w₂ : List Wire) (he : e₁ = e₂) (hw : w₁ = w₂) :
    extractNodes e₁ w₁ = extractNodes e₂ w₂ := by
  rw [he, hw]

/-- Witness for C8 at example A. -/
theorem C8_extractNodes_deterministic_witness :
    elemsA = elemsA ∧ extractNodes elemsA wiresA = extractNodes elemsA wiresA :=
  ⟨rfl, C8_extractNodes_deterministic elemsA wiresA elemsA wiresA rfl rfl⟩

/-! ## The union-find partition -/

theorem mem_keyOf (p : UFPartition) (a : String) : a ∈ keyOf p a := by
  rw [keyOf]
  cases hf : p.find? (fun c => a ∈ c) with
  | none => exact List.mem_singleton.mpr rfl
  | some c =>
    have := List.find?_some hf
    simpa using this

theorem keyOf_cases (p : UFPartition) (a : String) :
    keyOf p a ∈ p ∨ (keyOf p a = [a] ∧ ∀ c ∈ p, a ∉ c) := by
  rw [keyOf]
  cases hf : p.find? (fun c => a ∈ c) with
  | none =>
    refine Or.inr ⟨rfl, fun c hc => ?_⟩
    have := List.find?_eq_none.mp hf c hc
    simpa using this
  | some c => exact Or.inl (List.mem_of_find?_eq_some hf)

theorem classes_eq {p : UFPartition} (hinv : ufInv p) {c d : List String}
    (hc : c ∈ p) (hd : d ∈ p) {a : String} (hac : a ∈ c) (had : a ∈ d) :
    c = d := by
  have hdisj := hinv.2
  clear hinv
  revert hc hd
  induction hdisj with
  | nil => intro hc _; cases hc
  | @cons x rest hx hrest ih =>
    intro hc hd
    rcases List.mem_cons.mp hc with rfl | hc'
    · rcases List.mem_cons.mp hd with rfl | hd'
      · rfl
      · exact absurd had (hx d hd' a hac)
    · rcases List.mem_cons.mp hd with rfl | hd'
      · exact absurd hac (hx c hc' a had)
      · exact ih hc' hd'

theorem keyOf_of_mem {p : UFPartition} (hinv : ufInv p) {c : List String}
    (hc : c ∈ p) {a : String} (hac : a ∈ c) : keyOf p a = c := by
  rcases keyOf_cases p a with hk | ⟨hk, hall⟩
  · exact classes_eq hinv hk hc (mem_keyOf p a) hac
  · exact absurd hac (hall c hc)

theorem keyOf_eq_of_mem_keyOf {p : UFPartition} (hinv : ufInv p) {a x : String}
    (hx : x ∈ keyOf p a) : keyOf p x = keyOf p a := by
  rcases keyOf_cases p a with hk | ⟨hk, hall⟩
  · exact keyOf_of_mem hinv hk hx
  · rw [hk] at hx
    rw [List.mem_singleton.mp hx]

theorem keyOf_ne_nil (p : UFPartition) (a : String) : keyOf p a ≠ [] :=
  List.ne_nil_of_mem (mem_keyOf p a)

theorem ufInv_ufUnion {p : UFPartition} (hinv : ufInv p) (a b : String) :
    ufInv (ufUnion p a b) := by
  rw [ufUnion]
  by_cases hab : keyOf p a = keyOf p b
  · rw [if_pos hab]; exact hinv
  · rw [if_neg hab]
    constructor
    · intro c hc
      rcases List.mem_append.mp hc with hc | hc
      · exact hinv.1 c (List.mem_of_mem_filter hc)
      · rw [List.mem_singleton.mp hc]
        intro h
        exact keyOf_ne_nil p a (List.append_eq_nil.mp h).1
    · rw [List.pairwise_append]
      refine ⟨List.Pairwise.sublist (List.filter_sublist p) hinv.2,
        List.pairwise_singleton _ _, ?_⟩
      intro c hc d hd
      have hd' : d = keyOf p a ++ keyOf p b := List.mem_singleton.mp hd
      rcases List.mem_filter.mp hc with ⟨hcp, hcond⟩
      have hcne : ¬(c = keyOf p a) ∧ ¬(c = keyOf p b) := by simpa using hcond
      show ∀ x, x ∈ c → x ∉ d
      intro x hxc hxd
      rw [hd'] at hxd
      have hkx : keyOf p x = c := keyOf_of_mem hinv hcp hxc
      rcases List.mem_append.mp hxd with hxa | hxb
      · exact hcne.1 (by rw [← hkx, keyOf_eq_of_mem_keyOf hinv hxa])
      · exact hcne.2 (by rw [← hkx, keyOf_eq_of_mem_keyOf hinv hxb])

theorem find?_eq_some_of_unique {α : Type} {l : List α} {f : α → Bool} {c : α}
    (hc : c ∈ l) (hfc : f c = true) (huniq : ∀ d ∈ l, f d = true → d = c) :
    l.find? f = some c := by
  induction l with
  | nil => cases hc
  | cons x rest ih =>
    by_cases hfx : f x = true
    · rw [List.find?_cons_of_pos _ hfx]
      rw [huniq x (List.mem_cons_self x rest) hfx]
    · rw [List.find?_cons_of_neg _ hfx]
      rcases List.mem_cons.mp hc with rfl | hc'
      · exact absurd hfc hfx
      · exact ih hc' fun d hd hfd => huniq d (List.mem_cons_of_mem x hd) hfd

/-- The effect of `union` on every root: the two merged classes get the
merged key, every other id keeps its key. -/
theorem keyOf_ufUnion {p : UFPartition} (hinv : ufInv p) {a b : String}
    (hab : keyOf p a ≠ keyOf p b) (x : String) :
    keyOf (ufUnion p a b) x =
      if keyOf p x = keyOf p a ∨ keyOf p x = keyOf p b
      then keyOf p a ++ keyOf p b else keyOf p x := by
  rw [ufUnion]
  rw [if_neg hab]
  by_cases hx : keyOf p x = keyOf p a ∨ keyOf p x = keyOf p b
  · rw [if_pos hx]
    have hxmem : x ∈ keyOf p a ++ keyOf p b := by
      rcases hx with hx | hx
      · exact List.mem_append.mpr (Or.inl (hx ▸ mem_keyOf p x))
      · exact List.mem_append.mpr (Or.inr (hx ▸ mem_keyOf p x))
    have hfilter : (p.filter fun c => c ≠ keyOf p a ∧ c ≠ keyOf p b).find?
        (fun c => x ∈ c) = none := by
      refine List.find?_eq_none.mpr ?_
      intro c hc
      rcases List.mem_filter.mp hc with ⟨hcp, hcond⟩
      have hcne : ¬(c = keyOf p a) ∧ ¬(c = keyOf p b) := by simpa using hcond
      simp only [decide_eq_true_eq]
      intro hxc
      have := keyOf_of_mem hinv hcp hxc
      rcases hx with hx | hx
      · exact hcne.1 (by rw [← this, hx])
      · exact hcne.2 (by rw [← this, hx])
    rw [keyOf, List.find?_append, hfilter]
    simp [hxmem]
  · rw [if_neg hx]
    push_neg at hx
    have hmerged : x ∉ keyOf p a ++ keyOf p b := by
      intro hmem
      rcases List.mem_append.mp hmem with hxa | hxb
      · exact hx.1 (keyOf_eq_of_mem_keyOf hinv hxa)
      · exact hx.2 (keyOf_eq_of_mem_keyOf hinv hxb)
    rcases keyOf_cases p x with hk | ⟨hk, hall⟩
    · -- x lies in the class `keyOf p x ∈ p`, which survives the filter
      have hmem_filter : keyOf p x ∈ p.filter fun c => c ≠ keyOf p a ∧ c ≠ keyOf p b := by
        refine List.mem_filter.mpr ⟨hk, ?_⟩
        simp [hx.1, hx.2]
      have hfind : (p.filter fun c => c ≠ keyOf p a ∧ c ≠ keyOf p b).find?
          (fun c => x ∈ c) = some (keyOf p x) := by
        refine find?_eq_some_of_unique hmem_filter (by simp [mem_keyOf p x]) ?_
        intro d hd hfd
        rcases List.mem_filter.mp hd with ⟨hdp, -⟩
        have hxd : x ∈ d := by simpa using hfd
        exact (keyOf_of_mem hinv hdp hxd).symm
      rw [keyOf, List.find?_append, hfind]
      rfl
    · -- x lies in no class of `p`: it cannot enter any class of the union
      have hfilter : (p.filter fun c => c ≠ keyOf p a ∧ c ≠ keyOf p b).find?
          (fun c => x ∈ c) = none := by
        refine List.find?_eq_none.mpr ?_
        intro c hc
        simp only [decide_eq_true_eq]
        exact hall c (List.mem_of_mem_filter hc)
      rw [keyOf, List.find?_append, hfilter]
      simp only [Option.none_or]
      rw [show (([keyOf p a ++ keyOf p b] : UFPartition).find? fun c => x ∈ c) = none by
        refine List.find?_eq_none.mpr ?_
        intro c hc
        rw [List.mem_singleton.mp hc]
        simpa using hmerged]
      rw [hk]

theorem sameKey_ufUnion_of {p : UFPartition} (hinv : ufInv p) (a b : String)
    {x y : String} (h : sameKey p x y) : sameKey (ufUnion p a b) x y := by
  by_cases hab : keyOf p a = keyOf p b
  · rw [ufUnion, if_pos hab]; exact h
  · rw [sameKey, keyOf_ufUnion hinv hab, keyOf_ufUnion hinv hab]
    rw [sameKey] at h
    rw [h]

theorem ufUnion_sameKey_ab {p : UFPartition} (hinv : ufInv p) (a b : String) :
    sameKey (ufUnion p a b) a b := by
  by_cases hab : keyOf p a = keyOf p b
  · rw [ufUnion, if_pos hab]; exact hab
  · rw [sameKey, keyOf_ufUnion hinv hab, keyOf_ufUnion hinv hab]
    rw [if_pos (Or.inl rfl), if_pos (Or.inr rfl)]

theorem sameKey_ufUnion_elim {p : UFPartition} (hinv : ufInv p) {a b x y : String}
    (h : sameKey (ufUnion p a b) x y) :
    sameKey p x y ∨
      ((sameKey p x a ∨ sameKey p x b) ∧ (sameKey p y a ∨ sameKey p y b)) := by
  by_cases hab : keyOf p a = keyOf p b
  · rw [ufUnion, if_pos hab] at h; exact Or.inl h
  · rw [sameKey, keyOf_ufUnion hinv hab, keyOf_ufUnion hinv hab] at h
    have hnotmerged : ∀ z : String,
        ¬(keyOf p z = keyOf p a ∨ keyOf p z = keyOf p b) →
        keyOf p z ≠ keyOf p a ++ keyOf p b := by
      intro z hz he
      have hzmem : z ∈ keyOf p a ++ keyOf p b := he ▸ mem_keyOf p z
      rcases List.mem_append.mp hzmem with hza | hzb
      · exact hz (Or.inl (keyOf_eq_of_mem_keyOf hinv hza))
      · exact hz (Or.inr (keyOf_eq_of_mem_keyOf hinv hzb))
    by_cases cx : keyOf p x = keyOf p a ∨ keyOf p x = keyOf p b
    · by_cases cy : keyOf p y = keyOf p a ∨ keyOf p y = keyOf p b
      · exact Or.inr ⟨cx, cy⟩
      · rw [if_pos cx, if_neg cy] at h
        exact absurd h.symm (hnotmerged y cy)
    · by_cases cy : keyOf p y = keyOf p a ∨ keyOf p y = keyOf p b
      · rw [if_neg cx, if_pos cy] at h
        exact absurd h (hnotmerged x cx)
      · rw [if_neg cx, if_neg cy] at h
        exact Or.inl h

/-! ## Chains of fully-bound wires -/

theorem Chained.trans {pairs : List (String × String)} {x y z : String}
    (h₁ : Chained pairs x y) (h₂ : Chained pairs y z) : Chained pairs x z := by
  induction h₂ with
  | refl => exact h₁
  | step he _ ih => exact Chained.step he ih

theorem Chained.single {pairs : List (String × String)} {x y : String}
    (h : (x, y) ∈ pairs ∨ (y, x) ∈ pairs) : Chained pairs x y :=
  Chained.step h (Chained.refl x)

theorem Chained.symm {pairs : List (String × String)} {x y : String}
    (h : Chained pairs x y) : Chained pairs y x := by
  induction h with
  | refl => exact Chained.refl _
  | @step b c he hprev ih =>
    exact Chained.trans (Chained.single (Or.symm he)) ih

theorem Chained.mono {pairs pairs' : List (String × String)}
    (hsub : ∀ q ∈ pairs, q ∈ pairs') {x y : String}
    (h : Chained pairs x y) : Chained pairs' x y := by
  induction h with
  | refl => exact Chained.refl _
  | step he _ ih =>
    exact Chained.step (he.imp (hsub _) (hsub _)) ih

theorem chained_nil_iff (x y : String) : Chained [] x y ↔ x = y := by
  constructor
  · intro h
    induction h with
    | refl => rfl
    | step he _ ih => rcases he with he | he <;> cases he
  · rintro rfl; exact Chained.refl x

/-! ## The partition computed from a pair list is the chain closure -/

theorem ufInv_foldl (l : List (String × String)) {p : UFPartition}
    (hinv : ufInv p) :
    ufInv (l.foldl (fun p q => ufUnion p q.1 q.2) p) := by
  induction l generalizing p with
  | nil => exact hinv
  | cons q rest ih => exact ih (ufInv_ufUnion hinv q.1 q.2)

theorem sameKey_foldl_iff (l pre : List (String × String)) (p : UFPartition)
    (hinv : ufInv p)
    (H : ∀ x y, sameKey p x y ↔ Chained pre x y) :
    ∀ x y, sameKey (l.foldl (fun p q => ufUnion p q.1 q.2) p) x y ↔
      Chained (pre ++ l) x y := by
  induction l generalizing p pre with
  | nil => intro x y; rw [List.append_nil, List.foldl_nil]; exact H x y
  | cons q rest ih =>
    intro x y
    rw [List.foldl_cons]
    have hinv' : ufInv (ufUnion p q.1 q.2) := ufInv_ufUnion hinv q.1 q.2
    have H' : ∀ x y, sameKey (ufUnion p q.1 q.2) x y ↔
        Chained (pre ++ [q]) x y := by
      intro x y
      constructor
      · intro h
        have hsub : ∀ r ∈ pre, r ∈ pre ++ [q] :=
          fun r hr => List.mem_append.mpr (Or.inl hr)
        rcases sameKey_ufUnion_elim hinv h with h | ⟨hx, hy⟩
        · exact Chained.mono hsub ((H x y).mp h)
        · have hq : Chained (pre ++ [q]) q.1 q.2 :=
            Chained.single (Or.inl (List.mem_append.mpr (Or.inr (List.mem_singleton.mpr rfl))))
          have cx : Chained (pre ++ [q]) x q.1 := by
            rcases hx with hx | hx
            · exact Chained.mono hsub ((H x q.1).mp hx)
            · exact Chained.trans (Chained.mono hsub ((H x q.2).mp hx)) hq.symm
          have cy : Chained (pre ++ [q]) y q.1 := by
            rcases hy with hy | hy
            · exact Chained.mono hsub ((H y q.1).mp hy)
            · exact Chained.trans (Chained.mono hsub ((H y q.2).mp hy)) hq.symm
          exact Chained.trans cx cy.symm
      · intro h
        induction h with
        | refl => rfl
        | @step v w he hprev ih2 =>
          refine Eq.trans ih2 ?_
          have hvw : sameKey (ufUnion p q.1 q.2) v w := by
            rcases he with he | he
            · rcases List.mem_append.mp he with he | he
              · exact sameKey_ufUnion_of hinv q.1 q.2
                  ((H v w).mpr (Chained.single (Or.inl he)))
              · cases List.mem_singleton.mp he
                exact ufUnion_sameKey_ab hinv v w
            · rcases List.mem_append.mp he with he | he
              · exact sameKey_ufUnion_of hinv q.1 q.2
                  ((H v w).mpr (Chained.single (Or.inr he)))
              · cases List.mem_singleton.mp he
                exact (ufUnion_sameKey_ab hinv w v).symm
          exact hvw
    have := ih (pre ++ [q]) (ufUnion p q.1 q.2) hinv' H' x y
    rw [List.append_assoc] at this
    simpa using this

/-- The final union-find state decides exactly chain-connectivity over
the fully-bound wires. -/
theorem sameKey_finalPartition_iff (wires : List Wire) (x y : String) :
    sameKey (finalPartition wires) x y ↔ Chained (wirePairs wires) x y := by
  have hinv0 : ufInv ([] : UFPartition) := ⟨fun c hc => absurd hc (List.not_mem_nil c), List.Pairwise.nil⟩
  have H0 : ∀ x y : String, sameKey [] x y ↔ Chained [] x y := by
    intro x y
    rw [chained_nil_iff]
    constructor
    · intro h
      have : ([x] : List String) = [y] := h
      simpa using this
    · rintro rfl; rfl
  have := sameKey_foldl_iff (wirePairs wires) [] [] hinv0 H0 x y
  simpa [finalPartition] using this

theorem groupStep_inv {p : UFPartition} {gs : List (List String × List Terminal)}
    (hinv : GroupInv p gs) (t : Terminal) : GroupInv p (groupStep p gs t) := by
  rcases hinv with ⟨hkey, hdist, hne⟩
  rw [groupStep]
  by_cases hany : gs.any (fun g => g.1 = keyOf p t.id)
  · rw [if_pos hany]
    refine ⟨?_, ?_, ?_⟩
    · intro g hg u hu
      rcases List.mem_map.mp hg with ⟨g0, hg0, rfl⟩
      by_cases hk : g0.1 = keyOf p t.id
      · simp only [if_pos hk] at hu ⊢
        rcases List.mem_append.mp hu with hu | hu
        · exact hkey g0 hg0 u hu
        · rw [List.mem_singleton.mp hu, hk]
      · simp only [if_neg hk] at hu ⊢
        exact hkey g0 hg0 u hu
    · have hfst : ∀ g : List String × List Terminal,
          (if g.1 = keyOf p t.id then (g.1, g.2 ++ [t]) else g).1 = g.1 := by
        intro g
        by_cases hk : g.1 = keyOf p t.id <;> simp [hk]
      refine (List.pairwise_map).mpr ?_
      refine hdist.imp_of_mem ?_
      intro a b ha hb hab
      rw [hfst a, hfst b]
      exact hab
    · intro g hg
      rcases List.mem_map.mp hg with ⟨g0, hg0, rfl⟩
      by_cases hk : g0.1 = keyOf p t.id
      · simp [hk]
      · simp only [if_neg hk]
        exact hne g0 hg0
  · rw [if_neg hany]
    have hnone : ∀ g ∈ gs, g.1 ≠ keyOf p t.id := by
      intro g hg he
      exact hany (List.any_eq_true.mpr ⟨g, hg, by simpa using he⟩)
    refine ⟨?_, ?_, ?_⟩
    · intro g hg u hu
      rcases List.mem_append.mp hg with hg | hg
      · exact hkey g hg u hu
      · rw [List.mem_singleton.mp hg] at hu ⊢
        simp only at hu ⊢
        rw [List.mem_singleton.mp hu]
    · rw [List.pairwise_append]
      refine ⟨hdist, List.pairwise_singleton _ _, ?_⟩
      intro a ha b hb
      rw [List.mem_singleton.mp hb]
      exact hnone a ha
    · intro g hg
      rcases List.mem_append.mp hg with hg | hg
      · exact hne g hg
      · rw [List.mem_singleton.mp hg]
        simp

theorem groupStep_mem_mono {p : UFPartition} {gs : List (List String × List Terminal)}
    {u : Terminal} (t : Terminal)
    (h : ∃ g ∈ gs, u ∈ g.2 ∧ g.1 = keyOf p u.id) :
    ∃ g ∈ groupStep p gs t, u ∈ g.2 ∧ g.1 = keyOf p u.id := by
  rcases h with ⟨g, hg, hu, hk⟩
  rw [groupStep]
  by_cases hany : gs.any (fun g => g.1 = keyOf p t.id)
  · rw [if_pos hany]
    by_cases hkg : g.1 = keyOf p t.id
    · refine ⟨(g.1, g.2 ++ [t]), ?_, ?_, hk⟩
      · refine List.mem_map.mpr ⟨g, hg, ?_⟩
        rw [if_pos hkg]
      · exact List.mem_append.mpr (Or.inl hu)
    · refine ⟨g, ?_, hu, hk⟩
      refine List.mem_map.mpr ⟨g, hg, ?_⟩
      rw [if_neg hkg]
  · rw [if_neg hany]
    exact ⟨g, List.mem_append.mpr (Or.inl hg), hu, hk⟩

theorem groupStep_mem_self (p : UFPartition) (gs : List (List String × List Terminal))
    (t : Terminal) :
    ∃ g ∈ groupStep p gs t, t ∈ g.2 ∧ g.1 = keyOf p t.id := by
  rw [groupStep]
  by_cases hany : gs.any (fun g => g.1 = keyOf p t.id)
  · rw [if_pos hany]
    rcases List.any_eq_true.mp hany with ⟨g, hg, hk⟩
    have hk' : g.1 = keyOf p t.id := by simpa using hk
    refine ⟨(g.1, g.2 ++ [t]), ?_, ?_, hk'⟩
    · refine List.mem_map.mpr ⟨g, hg, ?_⟩
      rw [if_pos hk']
    · exact List.mem_append.mpr (Or.inr (List.mem_singleton.mpr rfl))
  · rw [if_neg hany]
    exact ⟨(keyOf p t.id, [t]), List.mem_append.mpr (Or.inr (List.mem_singleton.mpr rfl)),
      List.mem_singleton.mpr rfl, rfl⟩

theorem groupTerminals_inv (p : UFPartition) (ts : List Terminal) :
    GroupInv p (groupTerminals p ts) := by
  rw [groupTerminals]
  suffices h : ∀ acc, GroupInv p acc → GroupInv p (ts.foldl (groupStep p) acc) by
    exact h [] ⟨fun g hg => absurd hg (List.not_mem_nil g), List.Pairwise.nil,
      fun g hg => absurd hg (List.not_mem_nil g)⟩
  induction ts with
  | nil => intro acc hacc; exact hacc
  | cons t rest ih =>
    intro acc hacc
    rw [List.foldl_cons]
    exact ih _ (groupStep_inv hacc t)

theorem groupTerminals_mem (p : UFPartition) (ts : List Terminal)
    {t : Terminal} (ht : t ∈ ts) :
    ∃ g ∈ groupTerminals p ts, t ∈ g.2 ∧ g.1 = keyOf p t.id := by
  rw [groupTerminals]
  suffices h : ∀ acc, (∃ g ∈ acc, t ∈ g.2 ∧ g.1 = keyOf p t.id) ∨ t ∈ ts →
      ∃ g ∈ ts.foldl (groupStep p) acc, t ∈ g.2 ∧ g.1 = keyOf p t.id by
    exact h [] (Or.inr ht)
  clear ht
  induction ts with
  | nil =>
    intro acc h
    rcases h with h | h
    · exact h
    · cases h
  | cons u rest ih =>
    intro acc h
    rw [List.foldl_cons]
    rcases h with h | h
    · exact ih _ (Or.inl (groupStep_mem_mono u h))
    · rcases List.mem_cons.mp h with rfl | h
      · exact ih _ (Or.inl (groupStep_mem_self p acc t))
      · exact ih _ (Or.inr h)

theorem groups_eq_of_key {gs : List (List String × List Terminal)}
    (hdist : gs.Pairwise (fun g h => g.1 ≠ h.1)) {g h : List String × List Terminal}
    (hg : g ∈ gs) (hh : h ∈ gs) (hk : g.1 = h.1) : g = h := by
  revert hg hh
  induction hdist with
  | nil => intro hg _; cases hg
  | @cons x rest hx hrest ih =>
    intro hg hh
    rcases List.mem_cons.mp hg with rfl | hg'
    · rcases List.mem_cons.mp hh with rfl | hh'
      · rfl
      · exact absurd hk (hx h hh')
    · rcases List.mem_cons.mp hh with rfl | hh'
      · exact absurd hk.symm (hx g hg')
      · exact ih hg' hh'

theorem ufInv_nil : ufInv ([] : UFPartition) :=
  ⟨fun c hc => absurd hc (List.not_mem_nil c), List.Pairwise.nil⟩

theorem ufInv_finalPartition (wires : List Wire) : ufInv (finalPartition wires) :=
  ufInv_foldl (wirePairs wires) ufInv_nil

theorem extractNodes_terminals_perm (elements : List CircuitElement) (wires : List Wire) :
    ((extractNodes elements wires).map (fun n => n.terminals)).Perm
      ((groupTerminals (finalPartition wires) (allTerminals elements)).map
        (fun g => g.2)) := by
  simp only [extractNodes]
  have h1 : ∀ l : List ElectricalNode,
      (assignIds l).map (fun n => n.terminals) = l.map (fun n => n.terminals) := by
    intro l
    rw [assignIds, List.map_map]
    have : ((fun n : ElectricalNode => n.terminals) ∘
        fun p : ℕ × ElectricalNode => { p.2 with id := (p.1 : Int) }) =
        (fun n : ElectricalNode => n.terminals) ∘ Prod.snd := rfl
    rw [this, ← List.map_map, List.enum_map_snd]
  rw [h1]
  have h2 := (sortDesc_perm ((groupTerminals (finalPartition wires)
      (allTerminals elements)).map fun g =>
      ({ id := -1, terminals := g.2 } : ElectricalNode))).map
      (fun n : ElectricalNode => n.terminals)
  refine h2.trans ?_
  rw [List.map_map]
  exact List.Perm.refl _

theorem groupTerminals_disjoint (p : UFPartition) (ts : List Terminal) :
    ((groupTerminals p ts).map (fun g => g.2)).Pairwise
      (fun l₁ l₂ => ∀ t, t ∈ l₁ → t ∉ l₂) := by
  rcases groupTerminals_inv p ts with ⟨hkey, hdist, -⟩
  refine (List.pairwise_map).mpr ?_
  refine hdist.imp_of_mem ?_
  intro a b ha hb hab t hta htb
  exact hab ((hkey a ha t hta).symm.trans (hkey b hb t htb))

theorem extractNodes_disjoint (elements : List CircuitElement) (wires : List Wire) :
    (((extractNodes elements wires)).map (fun n => n.terminals)).Pairwise
      (fun l₁ l₂ => ∀ t, t ∈ l₁ → t ∉ l₂) := by
  have hsymm : Symmetric (fun l₁ l₂ : List Terminal => ∀ t, t ∈ l₁ → t ∉ l₂) := by
    intro l₁ l₂ h t ht₂ ht₁
    exact h t ht₁ ht₂
  exact ((extractNodes_terminals_perm elements wires).pairwise_iff
    (fun hxy => hsymm hxy)).mpr (groupTerminals_disjoint _ _)

/-- C1: `extractNodes` partitions the element terminals into exactly the
equivalence classes generated by the fully-bound wire connections: two
terminals land in a common node precisely when a chain of fully-bound
wires joins their ids (so wires with a missing endpoint have no effect),
every terminal lies in some node, and in only one node. -/
theorem C1_extractNodes_partition (elements : List CircuitElement) (wires : List Wire)
    (t₁ t₂ : Terminal) (h₁ : t₁ ∈ allTerminals elements)
    (h₂ : t₂ ∈ allTerminals elements) :
    ((∃ n ∈ extractNodes elements wires, t₁ ∈ n.terminals ∧ t₂ ∈ n.terminals) ↔
      Chained (wirePairs wires) t₁.id t₂.id) ∧
    (∃ n ∈ extractNodes elements wires, t₁ ∈ n.terminals) ∧
    (∀ n₁ ∈ extractNodes elements wires, ∀ n₂ ∈ extractNodes elements wires,
      t₁ ∈ n₁.terminals → t₁ ∈ n₂.terminals → n₁ = n₂) := by
  have hinv := ufInv_finalPartition wires
  rcases groupTerminals_inv (finalPartition wires) (allTerminals elements) with
    ⟨hkey, hdist, -⟩
  have hperm := extractNodes_terminals_perm elements wires
  -- a group reachable in the output, in both directions
  have houtput : ∀ gl : List Terminal,
      (gl ∈ (groupTerminals (finalPartition wires) (allTerminals elements)).map
        (fun g => g.2)) ↔ ∃ n ∈ extractNodes elements wires, n.terminals = gl := by
    intro gl
    rw [← hperm.mem_iff]
    constructor
    · intro h
      rcases List.mem_map.mp h with ⟨n, hn, rfl⟩
      exact ⟨n, hn, rfl⟩
    · rintro ⟨n, hn, rfl⟩
      exact List.mem_map_of_mem _ hn
  refine ⟨⟨?_, ?_⟩, ?_, ?_⟩
  · -- same node → chained
    rintro ⟨n, hn, hm₁, hm₂⟩
    have hgl : n.terminals ∈ (groupTerminals (finalPartition wires)
        (allTerminals elements)).map (fun g => g.2) :=
      (houtput n.terminals).mpr ⟨n, hn, rfl⟩
    rcases List.mem_map.mp hgl with ⟨g, hg, hgl'⟩
    have hk₁ : keyOf (finalPartition wires) t₁.id = g.1 :=
      hkey g hg t₁ (by rw [hgl']; exact hm₁)
    have hk₂ : keyOf (finalPartition wires) t₂.id = g.1 :=
      hkey g hg t₂ (by rw [hgl']; exact hm₂)
    exact (sameKey_finalPartition_iff wires t₁.id t₂.id).mp (hk₁.trans hk₂.symm)
  · -- chained → same node
    intro hch
    have hsk := (sameKey_finalPartition_iff wires t₁.id t₂.id).mpr hch
    rcases groupTerminals_mem (finalPartition wires) (allTerminals elements) h₁ with
      ⟨g₁, hg₁, hm₁, hk₁⟩
    rcases groupTerminals_mem (finalPartition wires) (allTerminals elements) h₂ with
      ⟨g₂, hg₂, hm₂, hk₂⟩
    have hgeq : g₁ = g₂ := groups_eq_of_key hdist hg₁ hg₂ (by rw [hk₁, hk₂, hsk])
    rcases (houtput g₁.2).mp (List.mem_map_of_mem _ hg₁) with ⟨n, hn, hterm⟩
    exact ⟨n, hn, by rw [hterm]; exact hm₁, by rw [hterm, hgeq]; exact hm₂⟩
  · -- existence
    rcases groupTerminals_mem (finalPartition wires) (allTerminals elements) h₁ with
      ⟨g₁, hg₁, hm₁, -⟩
    rcases (houtput g₁.2).mp (List.mem_map_of_mem _ hg₁) with ⟨n, hn, hterm⟩
    exact ⟨n, hn, by rw [hterm]; exact hm₁⟩
  · -- uniqueness
    intro n₁ hn₁ n₂ hn₂ hm₁ hm₂
    rcases List.mem_iff_get.mp hn₁ with ⟨i₁, hi₁⟩
    rcases List.mem_iff_get.mp hn₂ with ⟨i₂, hi₂⟩
    have hdisj := extractNodes_disjoint elements wires
    have hlen : ((extractNodes elements wires).map fun n => n.terminals).length =
        (extractNodes elements wires).length := List.length_map _ _
    have hget : ∀ i : Fin (extractNodes elements wires).length,
        (((extractNodes elements wires).map fun n => n.terminals).get
          ⟨i.1, by rw [hlen]; exact i.2⟩) = ((extractNodes elements wires).get i).terminals := by
      intro i
      rw [List.get_map]
    rcases lt_trichotomy i₁.1 i₂.1 with hlt | heq | hgt
    · exfalso
      have := List.pairwise_iff_get.mp hdisj ⟨i₁.1, by rw [hlen]; exact i₁.2⟩
        ⟨i₂.1, by rw [hlen]; exact i₂.2⟩ hlt
      rw [hget i₁, hget i₂, hi₁, hi₂] at this
      exact this t₁ hm₁ hm₂
    · rw [← hi₁, ← hi₂]
      congr 1
      exact Fin.ext heq
    · exfalso
      have := List.pairwise_iff_get.mp hdisj ⟨i₂.1, by rw [hlen]; exact i₂.2⟩
        ⟨i₁.1, by rw [hlen]; exact i₁.2⟩ hgt
      rw [hget i₁, hget i₂, hi₁, hi₂] at this
      exact this t₁ hm₂ hm₁

/-- Witness for C1 at example A: terminals `s0` and `r0` are joined by a
wire and extraction puts them in one node; `s0` lies in exactly one
node. -/
theorem C1_extractNodes_partition_witness :
    (⟨"s0"⟩ : Terminal) ∈ allTerminals elemsA ∧
    (∃ n ∈ extractNodes elemsA wiresA,
      (⟨"s0"⟩ : Terminal) ∈ n.terminals ∧ (⟨"r0"⟩ : Terminal) ∈ n.terminals) ∧
    (∃ n ∈ extractNodes elemsA wiresA, (⟨"s0"⟩ : Terminal) ∈ n.terminals) := by
  have h₁ : (⟨"s0"⟩ : Terminal) ∈ allTerminals elemsA := by decide
  have h₂ : (⟨"r0"⟩ : Terminal) ∈ allTerminals elemsA := by decide
  have hch : Chained (wirePairs wiresA) (Terminal.id ⟨"s0"⟩) (Terminal.id ⟨"r0"⟩) := by
    refine Chained.single (Or.inl ?_)
    decide
  have hmain := C1_extractNodes_partition elemsA wiresA ⟨"s0"⟩ ⟨"r0"⟩ h₁ h₂
  exact ⟨h₁, hmain.1.mpr hch, hmain.2.1⟩

/-! ## Solver basics -/

theorem mset_apply (A : Mat) (a b : ℕ) (v : ℚ) (i j : ℕ) :
    mset A a b v i j = if i = a ∧ j = b then v else A i j := rfl

theorem mset_apply_ne (A : Mat) (a b : ℕ) (v : ℚ) {i j : ℕ}
    (h : ¬(i = a ∧ j = b)) : mset A a b v i j = A i j := by
  rw [mset_apply, if_neg h]

theorem vset_apply (z : Vec) (a : ℕ) (v : ℚ) (i : ℕ) :
    vset z a v i = if i = a then v else z i := rfl

theorem vset_apply_ne (z : Vec) (a : ℕ) (v : ℚ) {i : ℕ} (h : i ≠ a) :
    vset z a v i = z i := by
  rw [vset_apply, if_neg h]

theorem matInv_eq_inv {n : ℕ} (M : Matrix (Fin n) (Fin n) ℚ) : matInv M = M⁻¹ := by
  rw [matInv, Matrix.inv_def, Ring.inverse_eq_inv]

/-- A solution check pins the solved vector: if `M · x₀ = z` and `M` is
nonsingular, then the vector computed by the solver is `x₀`. -/
theorem matInv_mulVec_eq {n : ℕ} {M : Matrix (Fin n) (Fin n) ℚ} {z x0 : Fin n → ℚ}
    (hdet : M.det ≠ 0) (hx : M.mulVec x0 = z) : (matInv M).mulVec z = x0 := by
  rw [matInv_eq_inv, ← hx, Matrix.mulVec_mulVec,
    Matrix.nonsing_inv_mul M (isUnit_iff_ne_zero.mpr hdet), Matrix.one_mulVec]

/-- The solved vector solves the system. -/
theorem mulVec_solved {n : ℕ} {M : Matrix (Fin n) (Fin n) ℚ} {z : Fin n → ℚ}
    (hdet : M.det ≠ 0) : M.mulVec ((matInv M).mulVec z) = z := by
  rw [matInv_eq_inv, Matrix.mulVec_mulVec,
    Matrix.mul_nonsing_inv M (isUnit_iff_ne_zero.mpr hdet), Matrix.one_mulVec]

/-- The success branch of `solveCircuit`, spelled out. -/
theorem solveCircuit_success (e : List CircuitElement) (w : List Wire)
    (h1 : e.isEmpty = false)
    (h2 : ¬((extractNodes e w).length - 1 ≤ 0))
    (h3 : ¬((systemMatrix e w).det = 0)) :
    solveCircuit e w =
      ⟨nodeVoltagesOf ((extractNodes e w).length - 1) (solvedX e w),
       (e.foldl (deriveElem (extractNodes e w)
          (nodeVoltagesOf ((extractNodes e w).length - 1) (solvedX e w)))
         (((vSourcesOf e).enum).foldl
           (deriveVS (extractNodes e w) ((extractNodes e w).length - 1) (solvedX e w)
             (nodeVoltagesOf ((extractNodes e w).length - 1) (solvedX e w))) ([], []))).1,
       (e.foldl (deriveElem (extractNodes e w)
          (nodeVoltagesOf ((extractNodes e w).length - 1) (solvedX e w)))
         (((vSourcesOf e).enum).foldl
           (deriveVS (extractNodes e w) ((extractNodes e w).length - 1) (solvedX e w)
             (nodeVoltagesOf ((extractNodes e w).length - 1) (solvedX e w))) ([], []))).2⟩ := by
  rw [solveCircuit]
  simp only [h1, Bool.false_eq_true, if_false, if_neg h2, if_neg h3]

/-- `solveCircuit` returns the empty result exactly on the three early
exits: no elements, at most one node group, singular matrix. -/
theorem solveCircuit_eq_empty_iff (e : List CircuitElement) (w : List Wire) :
    solveCircuit e w = emptyResult ↔
      (e = [] ∨ (extractNodes e w).length ≤ 1 ∨ (systemMatrix e w).det = 0) := by
  by_cases h1 : e.isEmpty
  · rw [solveCircuit, if_pos h1]
    simp [List.isEmpty_iff.mp h1]
  · have h1' : e.isEmpty = false := by simpa using h1
    by_cases h2 : (extractNodes e w).length - 1 ≤ 0
    · rw [solveCircuit]
      simp only [h1', Bool.false_eq_true, if_false, if_pos h2]
      have : (extractNodes e w).length ≤ 1 := by omega
      simp [this]
    · by_cases h3 : (systemMatrix e w).det = 0
      · rw [solveCircuit]
        simp only [h1', Bool.false_eq_true, if_false, if_neg h2, if_pos h3]
        simp [h3]
      · rw [solveCircuit_success e w h1' h2 h3]
        constructor
        · intro hcontr
          have := congrArg SolverResult.nodeVoltages hcontr
          simp [nodeVoltagesOf, emptyResult] at this
        · intro hcontr
          rcases hcontr with hc | hc | hc
          · rw [hc] at h1'; simp at h1'
          · exact absurd (by omega : (extractNodes e w).length - 1 ≤ 0) h2
          · exact absurd hc h3

theorem solveCircuit_ne_empty_conditions (e : List CircuitElement) (w : List Wire)
    (h : solveCircuit e w ≠ emptyResult) :
    e.isEmpty = false ∧ ¬((extractNodes e w).length - 1 ≤ 0) ∧
      (systemMatrix e w).det ≠ 0 := by
  have hiff := solveCircuit_eq_empty_iff e w
  have h' : ¬(e = [] ∨ (extractNodes e w).length ≤ 1 ∨ (systemMatrix e w).det = 0) :=
    fun hc => h (hiff.mpr hc)
  push_neg at h'
  refine ⟨?_, ?_, h'.2.2⟩
  · cases e with
    | nil => exact absurd rfl h'.1
    | cons a l => rfl
  · have := h'.2.1
    omega

/-! ## The node-voltage record -/

theorem lookup_nodeVoltagesOf_zero (numNodes : ℕ) (xf : ℕ → ℚ) :
    List.lookup 0 (nodeVoltagesOf numNodes xf) = some 0 := by
  rw [nodeVoltagesOf, List.lookup]
  rfl

theorem lookup_range_shift (n : ℕ) (xf : ℕ → ℚ) (i : ℕ) (hi : i < n) :
    List.lookup (Int.ofNat i + 1)
      ((List.range n).map fun j => (Int.ofNat j + 1, xf j)) = some (xf i) := by
  induction n with
  | zero => omega
  | succ m ih =>
    rw [List.range_succ, List.map_append, List.lookup_append]
    by_cases hin : i < m
    · rw [ih hin]
      rfl
    · have hi' : i = m := by omega
      subst hi'
      have hnone : List.lookup (Int.ofNat i + 1)
          ((List.range i).map fun j => (Int.ofNat j + 1, xf j)) = none := by
        rw [List.lookup_eq_none_iff]
        intro q hq
        rcases List.mem_map.mp hq with ⟨j, hj, rfl⟩
        have hjn : j < i := List.mem_range.mp hj
        show ((Int.ofNat i + 1 : Int) != (Int.ofNat j + 1)) = true
        simp only [bne_iff_ne, ne_eq, Int.ofNat_eq_natCast]
        omega
      rw [hnone, Option.none_or]
      simp [List.lookup]

theorem nvGet_nodeVoltagesOf_zero (numNodes : ℕ) (xf : ℕ → ℚ) :
    nvGet (nodeVoltagesOf numNodes xf) 0 = 0 := by
  rw [nvGet, lookup_nodeVoltagesOf_zero]
  rfl

theorem nvGet_nodeVoltagesOf_pos (numNodes : ℕ) (xf : ℕ → ℚ) (i : ℕ)
    (hi : i < numNodes) :
    nvGet (nodeVoltagesOf numNodes xf) (Int.ofNat i + 1) = xf i := by
  rw [nvGet, nodeVoltagesOf, List.lookup]
  have : ((Int.ofNat i + 1 : Int) == 0) = false := by
    rw [beq_eq_false_iff_ne]
    simp only [ne_eq, Int.ofNat_eq_natCast]
    omega
  rw [this]
  rw [lookup_range_shift numNodes xf i hi]
  rfl

theorem nvGet_nodeVoltagesOf_nonneg (numNodes : ℕ) (xf : ℕ → ℚ) (k : Int)
    (h0 : 0 ≤ k) (hle : k ≤ (numNodes : Int)) :
    nvGet (nodeVoltagesOf numNodes xf) k =
      if k = 0 then 0 else xf (k.toNat - 1) := by
  by_cases hk : k = 0
  · rw [if_pos hk, hk, nvGet_nodeVoltagesOf_zero]
  · rw [if_neg hk]
    have h1 : 1 ≤ k := by omega
    have hk' : (k.toNat : Int) = k := Int.toNat_of_nonneg h0
    have hform : Int.ofNat (k.toNat - 1) + 1 = k := by
      simp only [Int.ofNat_eq_natCast]
      omega
    have := nvGet_nodeVoltagesOf_pos numNodes xf (k.toNat - 1) (by omega)
    rw [hform] at this
    exact this

/-! ## Node indices from extraction -/

/-- Every terminal gathered from the elements lies in some extracted
node. -/
theorem extractNodes_covers (elements : List CircuitElement) (wires : List Wire)
    {t : Terminal} (ht : t ∈ allTerminals elements) :
    ∃ n ∈ extractNodes elements wires, t ∈ n.terminals := by
  rcases groupTerminals_mem (finalPartition wires) (allTerminals elements) ht with
    ⟨g, hg, hm, -⟩
  have hperm := extractNodes_terminals_perm elements wires
  have : g.2 ∈ (extractNodes elements wires).map (fun n => n.terminals) := by
    rw [hperm.mem_iff]
    exact List.mem_map_of_mem _ hg
  rcases List.mem_map.mp this with ⟨n, hn, hterm⟩
  exact ⟨n, hn, by rw [hterm]; exact hm⟩

theorem getNodeIndex_found (nodes : List ElectricalNode) (tid : String)
    (h : ∃ n ∈ nodes, n.terminals.any (fun t => t.id = tid)) :
    ∃ n ∈ nodes, getNodeIndex nodes tid = n.id ∧
      (nodes.find? (fun n => n.terminals.any fun t => t.id = tid)) = some n := by
  rcases h with ⟨n, hn, hp⟩
  have hsome : (nodes.find? (fun n => n.terminals.any fun t => t.id = tid)).isSome :=
    List.find?_isSome.mpr ⟨n, hn, hp⟩
  rcases Option.isSome_iff_exists.mp hsome with ⟨m, hm⟩
  refine ⟨m, List.mem_of_find?_eq_some hm, ?_, hm⟩
  rw [getNodeIndex, hm]

/-- Node ids in the extracted list are exactly their positions. -/
theorem extractNodes_mem_id (elements : List CircuitElement) (wires : List Wire)
    {n : ElectricalNode} (hn : n ∈ extractNodes elements wires) :
    0 ≤ n.id ∧ n.id < ((extractNodes elements wires).length : Int) := by
  rcases List.mem_iff_get.mp hn with ⟨i, rfl⟩
  rw [extractNodes_get_id elements wires i.1 i.2]
  constructor
  · exact Int.ofNat_nonneg i.1
  · exact_mod_cast i.2

/-- `getNodeIndex` on an extracted node list: `-1` or a node position. -/
theorem getNodeIndex_bounds (elements : List CircuitElement) (wires : List Wire)
    (tid : String) :
    getNodeIndex (extractNodes elements wires) tid = -1 ∨
      (0 ≤ getNodeIndex (extractNodes elements wires) tid ∧
       getNodeIndex (extractNodes elements wires) tid <
        ((extractNodes elements wires).length : Int)) := by
  rw [getNodeIndex]
  cases hf : (extractNodes elements wires).find?
      (fun n => n.terminals.any fun t => t.id = tid) with
  | none => exact Or.inl rfl
  | some n =>
    exact Or.inr (extractNodes_mem_id elements wires (List.mem_of_find?_eq_some hf))

/-- Terminals of listed elements always resolve: the claim C9's
"unresolved terminal" case cannot arise from `solveCircuit`'s own
element list. -/
theorem getNodeIndex_of_mem_terminal (elements : List CircuitElement) (wires : List Wire)
    {t : Terminal} (ht : t ∈ allTerminals elements) :
    0 ≤ getNodeIndex (extractNodes elements wires) t.id := by
  rcases extractNodes_covers elements wires ht with ⟨n, hn, hm⟩
  rcases getNodeIndex_found (extractNodes elements wires) t.id
      ⟨n, hn, List.any_eq_true.mpr ⟨t, hm, by simp⟩⟩ with ⟨m, hmm, hid, -⟩
  rw [hid]
  exact (extractNodes_mem_id elements wires hmm).1

theorem getNodeIndex_le (elements : List CircuitElement) (wires : List Wire)
    (tid : String) :
    getNodeIndex (extractNodes elements wires) tid ≤
      (((extractNodes elements wires).length - 1 : ℕ) : Int) := by
  rcases getNodeIndex_bounds elements wires tid with h | ⟨h0, hlt⟩
  · rw [h]; omega
  · omega

/-! ## Example A evaluated -/

theorem exA_extract : extractNodes elemsA wiresA = nodesA := by decide

theorem exA_M : (systemMatrix elemsA wiresA : Matrix (Fin 2) (Fin 2) ℚ)
    = !![1/2 + GMIN, -1; -1, 0] := by
  ext i j
  fin_cases i <;> fin_cases j <;>
    · simp only [systemMatrix, Matrix.of_apply]
      rw [assemble, exA_extract]
      simp [assembleWith, elemsA, elV, elR, stampGz, resistorStamp, currentSourceStamp,
        stampVS, vsStampB, vsStampC, vcvsStampC, addGmin, vSourcesOf, termId,
        mset, vset, ndx, nodesA, getNodeIndex, List.find?, List.range_succ]

theorem exA_det : (systemMatrix elemsA wiresA).det = -1 := by
  rw [show (systemMatrix elemsA wiresA : Matrix (Fin 2) (Fin 2) ℚ) = _ from exA_M,
    Matrix.det_fin_two]
  norm_num [GMIN]

theorem exA_z : (rhsVec elemsA wiresA : Fin 2 → ℚ) = ![0, 5] := by
  funext i
  fin_cases i <;>
    · simp only [rhsVec]
      rw [assemble, exA_extract]
      simp [assembleWith, elemsA, elV, elR, stampGz, resistorStamp, currentSourceStamp,
        stampVS, vsStampB, vsStampC, vcvsStampC, addGmin, vSourcesOf, termId,
        mset, vset, ndx, nodesA, getNodeIndex, List.find?, List.range_succ]

theorem exA_x : ((matInv (systemMatrix elemsA wiresA)).mulVec (rhsVec elemsA wiresA)
    : Fin 2 → ℚ) = ![-5, -(5/2) - 5 * GMIN] := by
  refine matInv_mulVec_eq (by rw [exA_det]; norm_num) ?_
  rw [show (systemMatrix elemsA wiresA : Matrix (Fin 2) (Fin 2) ℚ) = _ from exA_M, exA_z]
  show (!![1/2 + GMIN, -1; -1, 0] : Matrix (Fin 2) (Fin 2) ℚ).mulVec
    ![-5, -(5/2) - 5 * GMIN] = ![0, 5]
  funext i
  fin_cases i <;>
    (simp [Matrix.mulVec, Matrix.dotProduct, Fin.sum_univ_two, GMIN]; try ring)

theorem exA_xf0 : solvedX elemsA wiresA 0 = -5 := by
  have h : (0:ℕ) < mnaSize elemsA wiresA := by decide
  simp only [solvedX, dif_pos h]
  rw [show ((matInv (systemMatrix elemsA wiresA)).mulVec (rhsVec elemsA wiresA)
      : Fin 2 → ℚ) = _ from exA_x]
  rfl

theorem exA_xf1 : solvedX elemsA wiresA 1 = -(5/2) - 5 * GMIN := by
  have h : (1:ℕ) < mnaSize elemsA wiresA := by decide
  simp only [solvedX, dif_pos h]
  rw [show ((matInv (systemMatrix elemsA wiresA)).mulVec (rhsVec elemsA wiresA)
      : Fin 2 → ℚ) = _ from exA_x]
  rfl

theorem exA_result : solveCircuit elemsA wiresA =
    ⟨[(0, 0), (1, -5)],
     [("V1", -(5/2) - 5 * GMIN), ("R1", 5/2)],
     [("V1", 25/2 + 25 * GMIN), ("R1", 25/2)]⟩ := by
  have hnv : nodeVoltagesOf ((extractNodes elemsA wiresA).length - 1) (solvedX elemsA wiresA)
      = [(0, 0), (1, -5)] := by
    rw [show (extractNodes elemsA wiresA).length - 1 = 1 from by decide]
    simp [nodeVoltagesOf, List.range_succ, exA_xf0]
  have hcp1 : List.foldl (deriveVS nodesA 1 (solvedX elemsA wiresA) [(0, 0), (1, -5)])
      ([], []) [(0, elV)]
      = ([("V1", -(5/2) - 5 * GMIN)], [("V1", 25/2 + 25 * GMIN)]) := by
    rw [List.foldl_cons, List.foldl_nil]
    simp only [deriveVS,
      show elV.id = "V1" from rfl,
      show termId elV 0 = "s0" from rfl, show termId elV 1 = "s1" from rfl,
      show getNodeIndex nodesA "s0" = 0 from rfl,
      show getNodeIndex nodesA "s1" = 1 from rfl,
      show nvGet [(0, 0), (1, -5)] 0 = 0 from rfl,
      show nvGet [(0, 0), (1, -5)] 1 = -5 from rfl,
      show (1:ℕ) + 0 = 1 from rfl, exA_xf1, recordSet]
    norm_num [GMIN]
  have hcp2 : List.foldl (deriveElem nodesA [(0, 0), (1, -5)])
      (([("V1", -(5/2) - 5 * GMIN)], [("V1", 25/2 + 25 * GMIN)])) [elV, elR]
      = ([("V1", -(5/2) - 5 * GMIN), ("R1", 5/2)],
         [("V1", 25/2 + 25 * GMIN), ("R1", 25/2)]) := by
    rw [List.foldl_cons, List.foldl_cons, List.foldl_nil]
    simp only [deriveElem,
      show elV.type = ElementType.VoltageSource from rfl,
      show elR.type = ElementType.Resistor from rfl,
      show elR.id = "R1" from rfl, show elR.value = (2:ℚ) from rfl,
      show termId elR 0 = "r0" from rfl, show termId elR 1 = "r1" from rfl,
      show getNodeIndex nodesA "r0" = 0 from rfl,
      show getNodeIndex nodesA "r1" = 1 from rfl,
      show nvGet [(0, 0), (1, -5)] 0 = 0 from rfl,
      show nvGet [(0, 0), (1, -5)] 1 = -5 from rfl, recordSet]
    norm_num [GMIN, abs_of_nonneg]
    simp
  rw [solveCircuit_success elemsA wiresA (by decide) (by decide)
      (by rw [exA_det]; norm_num)]
  rw [hnv, exA_extract, show nodesA.length - 1 = 1 from rfl,
    show (vSourcesOf elemsA).enum = [(0, elV)] from rfl, hcp1,
    show elemsA = [elV, elR] from rfl, hcp2]

theorem exA_ne_empty : solveCircuit elemsA wiresA ≠ emptyResult := by
  rw [exA_result]
  simp [emptyResult]

/-! ## Example N (negative resistance) evaluated -/

theorem exN_extract : extractNodes elemsN wiresA = nodesA := by decide

theorem exN_M : (systemMatrix elemsN wiresA : Matrix (Fin 2) (Fin 2) ℚ)
    = !![-1 + GMIN, -1; -1, 0] := by
  ext i j
  fin_cases i <;> fin_cases j <;>
    · simp only [systemMatrix, Matrix.of_apply]
      rw [assemble, exN_extract]
      simp [assembleWith, elemsN, elVn, elRn, stampGz, resistorStamp, currentSourceStamp,
        stampVS, vsStampB, vsStampC, vcvsStampC, addGmin, vSourcesOf, termId,
        mset, vset, ndx, nodesA, getNodeIndex, List.find?, List.range_succ]

theorem exN_det : (systemMatrix elemsN wiresA).det = -1 := by
  rw [show (systemMatrix elemsN wiresA : Matrix (Fin 2) (Fin 2) ℚ) = _ from exN_M,
    Matrix.det_fin_two]
  norm_num [GMIN]

theorem exN_z : (rhsVec elemsN wiresA : Fin 2 → ℚ) = ![0, 1] := by
  funext i
  fin_cases i <;>
    · simp only [rhsVec]
      rw [assemble, exN_extract]
      simp [assembleWith, elemsN, elVn, elRn, stampGz, resistorStamp, currentSourceStamp,
        stampVS, vsStampB, vsStampC, vcvsStampC, addGmin, vSourcesOf, termId,
        mset, vset, ndx, nodesA, getNodeIndex, List.find?, List.range_succ]

theorem exN_x : ((matInv (systemMatrix elemsN wiresA)).mulVec (rhsVec elemsN wiresA)
    : Fin 2 → ℚ) = ![-1, 1 - GMIN] := by
  refine matInv_mulVec_eq (by rw [exN_det]; norm_num) ?_
  rw [show (systemMatrix elemsN wiresA : Matrix (Fin 2) (Fin 2) ℚ) = _ from exN_M, exN_z]
  show (!![-1 + GMIN, -1; -1, 0] : Matrix (Fin 2) (Fin 2) ℚ).mulVec
    ![-1, 1 - GMIN] = ![0, 1]
  funext i
  fin_cases i <;>
    (simp [Matrix.mulVec, Matrix.dotProduct, Fin.sum_univ_two, GMIN]; try ring)

theorem exN_xf0 : solvedX elemsN wiresA 0 = -1 := by
  have h : (0:ℕ) < mnaSize elemsN wiresA := by decide
  simp only [solvedX, dif_pos h]
  rw [show ((matInv (systemMatrix elemsN wiresA)).mulVec (rhsVec elemsN wiresA)
      : Fin 2 → ℚ) = _ from exN_x]
  rfl

theorem exN_xf1 : solvedX elemsN wiresA 1 = 1 - GMIN := by
  have h : (1:ℕ) < mnaSize elemsN wiresA := by decide
  simp only [solvedX, dif_pos h]
  rw [show ((matInv (systemMatrix elemsN wiresA)).mulVec (rhsVec elemsN wiresA)
      : Fin 2 → ℚ) = _ from exN_x]
  rfl

theorem exN_result : solveCircuit elemsN wiresA =
    ⟨[(0, 0), (1, -1)],
     [("V1", 1 - GMIN), ("R1", -1)],
     [("V1", -1 + GMIN), ("R1", 1)]⟩ := by
  have hnv : nodeVoltagesOf ((extractNodes elemsN wiresA).length - 1) (solvedX elemsN wiresA)
      = [(0, 0), (1, -1)] := by
    rw [show (extractNodes elemsN wiresA).length - 1 = 1 from by decide]
    simp [nodeVoltagesOf, List.range_succ, exN_xf0]
  have hcp1 : List.foldl (deriveVS nodesA 1 (solvedX elemsN wiresA) [(0, 0), (1, -1)])
      ([], []) [(0, elVn)]
      = ([("V1", 1 - GMIN)], [("V1", -1 + GMIN)]) := by
    rw [List.foldl_cons, List.foldl_nil]
    simp only [deriveVS,
      show elVn.id = "V1" from rfl,
      show termId elVn 0 = "s0" from rfl, show termId elVn 1 = "s1" from rfl,
      show getNodeIndex nodesA "s0" = 0 from rfl,
      show getNodeIndex nodesA "s1" = 1 from rfl,
      show nvGet [(0, 0), (1, -1)] 0 = 0 from rfl,
      show nvGet [(0, 0), (1, -1)] 1 = -1 from rfl,
      show (1:ℕ) + 0 = 1 from rfl, exN_xf1, recordSet]
    norm_num [GMIN]
  have hcp2 : List.foldl (deriveElem nodesA [(0, 0), (1, -1)])
      (([("V1", 1 - GMIN)], [("V1", -1 + GMIN)])) [elVn, elRn]
      = ([("V1", 1 - GMIN), ("R1", -1)],
         [("V1", -1 + GMIN), ("R1", 1)]) := by
    rw [List.foldl_cons, List.foldl_cons, List.foldl_nil]
    simp only [deriveElem,
      show elVn.type = ElementType.VoltageSource from rfl,
      show elRn.type = ElementType.Resistor from rfl,
      show elRn.id = "R1" from rfl, show elRn.value = (-1:ℚ) from rfl,
      show termId elRn 0 = "r0" from rfl, show termId elRn 1 = "r1" from rfl,
      show getNodeIndex nodesA "r0" = 0 from rfl,
      show getNodeIndex nodesA "r1" = 1 from rfl,
      show nvGet [(0, 0), (1, -1)] 0 = 0 from rfl,
      show nvGet [(0, 0), (1, -1)] 1 = -1 from rfl, recordSet]
    norm_num [GMIN]
    simp
  rw [solveCircuit_success elemsN wiresA (by decide) (by decide)
      (by rw [exN_det]; norm_num)]
  rw [hnv, exN_extract, show nodesA.length - 1 = 1 from rfl,
    show (vSourcesOf elemsN).enum = [(0, elVn)] from rfl, hcp1,
    show elemsN = [elVn, elRn] from rfl, hcp2]

theorem exN_ne_empty : solveCircuit elemsN wiresA ≠ emptyResult := by
  rw [exN_result]
  simp [emptyResult]

/-! ## Example S (contradictory sources) evaluated -/

theorem exS_extract : extractNodes elemsS wiresS = nodesS := by decide

theorem exS_M : (systemMatrix elemsS wiresS : Matrix (Fin 3) (Fin 3) ℚ)
    = !![GMIN, -1, -1; -1, 0, 0; -1, 0, 0] := by
  ext i j
  fin_cases i <;> fin_cases j <;>
    · simp only [systemMatrix, Matrix.of_apply]
      rw [assemble, exS_extract]
      simp [assembleWith, elemsS, elSV1, elSV2, stampGz, resistorStamp, currentSourceStamp,
        stampVS, vsStampB, vsStampC, vcvsStampC, addGmin, vSourcesOf, termId,
        mset, vset, ndx, nodesS, getNodeIndex, List.find?, List.range_succ,
        List.enum, List.enumFrom]

theorem exS_det : (systemMatrix elemsS wiresS).det = 0 := by
  rw [show (systemMatrix elemsS wiresS : Matrix (Fin 3) (Fin 3) ℚ) = _ from exS_M,
    Matrix.det_fin_three]
  norm_num [GMIN]

theorem exS_empty : solveCircuit elemsS wiresS = emptyResult :=
  (solveCircuit_eq_empty_iff elemsS wiresS).mpr (Or.inr (Or.inr exS_det))

/-! ## C3, C4, C5 -/

/-- C3: whenever the assembled MNA matrix is singular — as happens when
two independent voltage sources force contradictory voltages on the same
node pair — `solveCircuit` returns the `SingularSystem` failure value
(all three maps empty).  In this exact model no NaN/infinite value
exists to leak; the `mathjs.inv` throw is modelled by the determinant
test. -/
theorem C3_singular_returns_empty (e : List CircuitElement) (w : List Wire)
    (h : (systemMatrix e w).det = 0) : solveCircuit e w = emptyResult :=
  (solveCircuit_eq_empty_iff e w).mpr (Or.inr (Or.inr h))

/-- Witness for C3: the two-contradictory-sources circuit (5 V and 3 V
across the same node pair) has a singular matrix and yields the empty
result. -/
theorem C3_singular_returns_empty_witness :
    (systemMatrix elemsS wiresS).det = 0 ∧ solveCircuit elemsS wiresS = emptyResult :=
  ⟨exS_det, C3_singular_returns_empty elemsS wiresS exS_det⟩

/-- C4: every non-empty result contains the entry `0 ↦ 0` in
`nodeVoltages`: the ground node's voltage is exactly zero. -/
theorem C4_ground_is_zero (e : List CircuitElement) (w : List Wire)
    (h : solveCircuit e w ≠ emptyResult) :
    List.lookup 0 (solveCircuit e w).nodeVoltages = some 0 := by
  rcases solveCircuit_ne_empty_conditions e w h with ⟨h1, h2, h3⟩
  rw [solveCircuit_success e w h1 h2 h3]
  exact lookup_nodeVoltagesOf_zero _ _

/-- Witness for C4 at example A. -/
theorem C4_ground_is_zero_witness :
    solveCircuit elemsA wiresA ≠ emptyResult ∧
    List.lookup 0 (solveCircuit elemsA wiresA).nodeVoltages = some 0 :=
  ⟨exA_ne_empty, C4_ground_is_zero elemsA wiresA exA_ne_empty⟩

/-- Counterexample to C5 as stated: example S has a nonempty element
list and one non-ground node, yet `solveCircuit` returns all three maps
empty (the matrix is singular), so "empty exactly when no elements or no
non-ground nodes" fails. -/
theorem C5_cex :
    solveCircuit elemsS wiresS = emptyResult ∧
    elemsS ≠ [] ∧ ¬((extractNodes elemsS wiresS).length ≤ 1) :=
  ⟨exS_empty, by decide, by decide⟩

/-- C5 (amended): the result is empty exactly when the element list is
empty, or the extracted topology has zero non-ground nodes (at most one
node group), or the assembled MNA matrix is singular. -/
theorem C5_empty_characterization (e : List CircuitElement) (w : List Wire) :
    solveCircuit e w = emptyResult ↔
      (e = [] ∨ (extractNodes e w).length ≤ 1 ∨ (systemMatrix e w).det = 0) :=
  solveCircuit_eq_empty_iff e w

/-! ## Assembly characterization -/

theorem ndx_lt {numNodes : ℕ} {t : Int} (h1 : 0 < t) (h2 : t ≤ (numNodes : Int)) :
    ndx t < numNodes := by
  rw [ndx]
  omega

theorem resistorStamp_frame {numNodes : ℕ} {t1 t2 : Int}
    (ht1 : t1 ≤ (numNodes : Int)) (ht2 : t2 ≤ (numNodes : Int))
    (A : Mat) (g : ℚ) {i j : ℕ} (hij : numNodes ≤ i ∨ numNodes ≤ j) :
    resistorStamp A g t1 t2 i j = A i j := by
  have hno : ∀ a b : ℕ, a < numNodes → b < numNodes → ¬(i = a ∧ j = b) := by
    rintro a b ha hb ⟨rfl, rfl⟩
    rcases hij with h | h <;> omega
  simp only [resistorStamp]
  by_cases c1 : t1 > 0 <;> by_cases c2 : t2 > 0
  · have h1 := ndx_lt c1 ht1
    have h2 := ndx_lt c2 ht2
    rw [if_pos (⟨c1, c2⟩ : t1 > 0 ∧ t2 > 0), if_pos c1, if_pos c2,
      mset_apply_ne _ _ _ _ (hno _ _ h2 h1), mset_apply_ne _ _ _ _ (hno _ _ h1 h2),
      mset_apply_ne _ _ _ _ (hno _ _ h2 h2), mset_apply_ne _ _ _ _ (hno _ _ h1 h1)]
  · have h1 := ndx_lt c1 ht1
    rw [if_neg (fun hc => c2 hc.2), if_neg c2, if_pos c1,
      mset_apply_ne _ _ _ _ (hno _ _ h1 h1)]
  · have h2 := ndx_lt c2 ht2
    rw [if_neg (fun hc => c1 hc.1), if_pos c2, if_neg c1,
      mset_apply_ne _ _ _ _ (hno _ _ h2 h2)]
  · rw [if_neg (fun hc => c1 hc.1), if_neg c2, if_neg c1]

theorem currentSourceStamp_frame {numNodes : ℕ} {tA tB : Int}
    (htA : tA ≤ (numNodes : Int)) (htB : tB ≤ (numNodes : Int))
    (z : Vec) (v : ℚ) {i : ℕ} (hi : numNodes ≤ i) :
    currentSourceStamp z v tA tB i = z i := by
  have hno : ∀ a : ℕ, a < numNodes → i ≠ a := by
    rintro a ha rfl
    omega
  simp only [currentSourceStamp]
  by_cases cA : tA > 0 <;> by_cases cB : tB > 0
  · rw [if_pos cB, if_pos cA, vset_apply_ne _ _ _ (hno _ (ndx_lt cB htB)),
      vset_apply_ne _ _ _ (hno _ (ndx_lt cA htA))]
  · rw [if_neg cB, if_pos cA, vset_apply_ne _ _ _ (hno _ (ndx_lt cA htA))]
  · rw [if_pos cB, if_neg cA, vset_apply_ne _ _ _ (hno _ (ndx_lt cB htB))]
  · rw [if_neg cB, if_neg cA]

/-- The additive effect of a current source on the `z` vector: exact
even when both terminals share a node. -/
theorem currentSourceStamp_apply (z : Vec) (v : ℚ) (tA tB : Int) (i : ℕ) :
    currentSourceStamp z v tA tB i =
      z i + ((if tA > 0 ∧ i = ndx tA then v else 0) +
        (if tB > 0 ∧ i = ndx tB then -v else 0)) := by
  simp only [currentSourceStamp]
  by_cases cA : tA > 0 <;> by_cases cB : tB > 0 <;>
    simp only [cA, cB, true_and, false_and, ite_true, ite_false, if_true, if_false,
      eq_self_iff_true, vset] <;>
    (try split_ifs) <;> simp_all <;> try ring

theorem stampGz_frame_A (nodes : List ElectricalNode) {numNodes : ℕ}
    (hbnd : ∀ tid, getNodeIndex nodes tid ≤ (numNodes : Int))
    (acc : Mat × Vec) (el : CircuitElement) {i j : ℕ}
    (hij : numNodes ≤ i ∨ numNodes ≤ j) :
    (stampGz nodes acc el).1 i j = acc.1 i j := by
  rw [stampGz]
  cases htype : el.type
  case Resistor => exact resistorStamp_frame (hbnd _) (hbnd _) acc.1 _ hij
  case VoltageSource => rfl
  case CurrentSource => rfl
  case VCVS => rfl

theorem stampGz_frame_z (nodes : List ElectricalNode) {numNodes : ℕ}
    (hbnd : ∀ tid, getNodeIndex nodes tid ≤ (numNodes : Int))
    (acc : Mat × Vec) (el : CircuitElement) {i : ℕ} (hi : numNodes ≤ i) :
    (stampGz nodes acc el).2 i = acc.2 i := by
  rw [stampGz]
  cases htype : el.type
  case Resistor => rfl
  case VoltageSource => rfl
  case CurrentSource => exact currentSourceStamp_frame (hbnd _) (hbnd _) acc.2 _ hi
  case VCVS => rfl

theorem foldl_stampGz_frame_A (nodes : List ElectricalNode) {numNodes : ℕ}
    (hbnd : ∀ tid, getNodeIndex nodes tid ≤ (numNodes : Int))
    (l : List CircuitElement) (acc : Mat × Vec) {i j : ℕ}
    (hij : numNodes ≤ i ∨ numNodes ≤ j) :
    (l.foldl (stampGz nodes) acc).1 i j = acc.1 i j := by
  induction l generalizing acc with
  | nil => rfl
  | cons el rest ih =>
    rw [List.foldl_cons, ih (stampGz nodes acc el),
      stampGz_frame_A nodes hbnd acc el hij]

theorem foldl_stampGz_frame_z (nodes : List ElectricalNode) {numNodes : ℕ}
    (hbnd : ∀ tid, getNodeIndex nodes tid ≤ (numNodes : Int))
    (l : List CircuitElement) (acc : Mat × Vec) {i : ℕ} (hi : numNodes ≤ i) :
    (l.foldl (stampGz nodes) acc).2 i = acc.2 i := by
  induction l generalizing acc with
  | nil => rfl
  | cons el rest ih =>
    rw [List.foldl_cons, ih (stampGz nodes acc el),
      stampGz_frame_z nodes hbnd acc el hi]

/-- The first assembly loop builds `z` additively: each entry is the sum
of the current-source contributions. -/
theorem stampGz_z_apply (nodes : List ElectricalNode) (acc : Mat × Vec)
    (el : CircuitElement) (i : ℕ) :
    (stampGz nodes acc el).2 i = acc.2 i + csContrib nodes el i := by
  rw [stampGz, csContrib]
  cases htype : el.type
  case Resistor => rw [add_zero]
  case VoltageSource => rw [add_zero]
  case CurrentSource => exact currentSourceStamp_apply acc.2 el.value _ _ i
  case VCVS => rw [add_zero]

theorem foldl_stampGz_z_apply (nodes : List ElectricalNode)
    (l : List CircuitElement) (acc : Mat × Vec) (i : ℕ) :
    (l.foldl (stampGz nodes) acc).2 i =
      acc.2 i + (l.map (fun el => csContrib nodes el i)).sum := by
  induction l generalizing acc with
  | nil => simp
  | cons el rest ih =>
    rw [List.foldl_cons, ih (stampGz nodes acc el), List.map_cons, List.sum_cons,
      stampGz_z_apply, add_assoc]

theorem addGmin_apply (n : ℕ) (A : Mat) (i j : ℕ) :
    addGmin n A i j = if i = j ∧ i < n then A i j + GMIN else A i j := by
  induction n generalizing A i j with
  | zero => simp [addGmin]
  | succ m ih =>
    rw [addGmin, List.range_succ, List.foldl_append, List.foldl_cons, List.foldl_nil]
    have hrw : (List.range m).foldl (fun A i => mset A i i (A i i + GMIN)) A
        = addGmin m A := rfl
    rw [hrw, mset_apply]
    by_cases hij : i = m ∧ j = m
    · rw [if_pos hij, ih]
      rcases hij with ⟨rfl, rfl⟩
      rw [if_neg (by omega), if_pos (by omega)]
    · rw [if_neg hij, ih]
      by_cases hcond : i = j ∧ i < m
      · rw [if_pos hcond, if_pos ⟨hcond.1, by omega⟩]
      · have hcond2 : ¬(i = j ∧ i < m + 1) := by
          rintro ⟨rfl, hlt⟩
          rcases not_and_or.mp hcond with h | h
          · exact h rfl
          · have him : i = m := by omega
            exact hij ⟨him, him⟩
        rw [if_neg hcond, if_neg hcond2]

theorem vsStampB_frame {numNodes : ℕ} {posNode negNode : Int}
    (hp : posNode ≤ (numNodes : Int)) (hn : negNode ≤ (numNodes : Int))
    (A : Mat) (vIdx : ℕ) {r c : ℕ} (hr : numNodes ≤ r) :
    vsStampB A vIdx posNode negNode r c = A r c := by
  have hno : ∀ a : ℕ, a < numNodes → ¬(r = a ∧ c = vIdx) := by
    rintro a ha ⟨rfl, rfl⟩
    omega
  simp only [vsStampB]
  by_cases cp : posNode > 0 <;> by_cases cn : negNode > 0
  · rw [if_pos cn, if_pos cp, mset_apply_ne _ _ _ _ (hno _ (ndx_lt cn hn)),
      mset_apply_ne _ _ _ _ (hno _ (ndx_lt cp hp))]
  · rw [if_neg cn, if_pos cp, mset_apply_ne _ _ _ _ (hno _ (ndx_lt cp hp))]
  · rw [if_pos cn, if_neg cp, mset_apply_ne _ _ _ _ (hno _ (ndx_lt cn hn))]
  · rw [if_neg cn, if_neg cp]

theorem vsStampC_ne (A : Mat) (vIdx : ℕ) (posNode negNode : Int) {r c : ℕ}
    (hr : r ≠ vIdx) : vsStampC A vIdx posNode negNode r c = A r c := by
  have hno : ∀ b : ℕ, ¬(r = vIdx ∧ c = b) := fun b hc => hr hc.1
  simp only [vsStampC]
  by_cases cp : posNode > 0 <;> by_cases cn : negNode > 0
  · rw [if_pos cn, if_pos cp, mset_apply_ne _ _ _ _ (hno _), mset_apply_ne _ _ _ _ (hno _)]
  · rw [if_neg cn, if_pos cp, mset_apply_ne _ _ _ _ (hno _)]
  · rw [if_pos cn, if_neg cp, mset_apply_ne _ _ _ _ (hno _)]
  · rw [if_neg cn, if_neg cp]

theorem vcvsStampC_ne (A : Mat) (vIdx : ℕ) (gain : ℚ) (inPosNode inNegNode : Int)
    {r c : ℕ} (hr : r ≠ vIdx) : vcvsStampC A vIdx gain inPosNode inNegNode r c = A r c := by
  have hno : ∀ b : ℕ, ¬(r = vIdx ∧ c = b) := fun b hc => hr hc.1
  simp only [vcvsStampC]
  by_cases cp : inPosNode > 0 <;> by_cases cn : inNegNode > 0
  · rw [if_pos cn, if_pos cp, mset_apply_ne _ _ _ _ (hno _), mset_apply_ne _ _ _ _ (hno _)]
  · rw [if_neg cn, if_pos cp, mset_apply_ne _ _ _ _ (hno _)]
  · rw [if_pos cn, if_neg cp, mset_apply_ne _ _ _ _ (hno _)]
  · rw [if_neg cn, if_neg cp]

theorem vsStampC_row (A : Mat) (vIdx : ℕ) (posNode negNode : Int) (c : ℕ) :
    vsStampC A vIdx posNode negNode vIdx c =
      if negNode > 0 ∧ c = ndx negNode then -1
      else if posNode > 0 ∧ c = ndx posNode then 1
      else A vIdx c := by
  simp only [vsStampC]
  by_cases cp : posNode > 0 <;> by_cases cn : negNode > 0 <;>
    simp only [cp, cn, ite_true, ite_false, if_true, if_false, true_and, false_and,
      mset_apply, eq_self_iff_true] <;>
    (try split_ifs) <;> simp_all

theorem stampVS_frame_A (nodes : List ElectricalNode) {numNodes : ℕ}
    (hbnd : ∀ tid, getNodeIndex nodes tid ≤ (numNodes : Int))
    (acc : Mat × Vec) (p : ℕ × CircuitElement) {r c : ℕ}
    (hr : numNodes ≤ r) (hne : r ≠ numNodes + p.1) :
    (stampVS nodes numNodes acc p).1 r c = acc.1 r c := by
  rw [stampVS]
  cases htype : p.2.type
  case Resistor => rfl
  case CurrentSource => rfl
  case VoltageSource =>
    exact (vsStampC_ne _ _ _ _ hne).trans (vsStampB_frame (hbnd _) (hbnd _) _ _ hr)
  case VCVS =>
    exact (vcvsStampC_ne _ _ _ _ _ hne).trans
      ((vsStampC_ne _ _ _ _ hne).trans (vsStampB_frame (hbnd _) (hbnd _) _ _ hr))

theorem stampVS_frame_z (nodes : List ElectricalNode) (numNodes : ℕ)
    (acc : Mat × Vec) (p : ℕ × CircuitElement) {r : ℕ}
    (hne : r ≠ numNodes + p.1) :
    (stampVS nodes numNodes acc p).2 r = acc.2 r := by
  rw [stampVS]
  cases htype : p.2.type
  case Resistor => rfl
  case CurrentSource => rfl
  case VoltageSource => exact vset_apply_ne _ _ _ hne
  case VCVS => rfl

theorem foldl_stampVS_frame_A (nodes : List ElectricalNode) {numNodes : ℕ}
    (hbnd : ∀ tid, getNodeIndex nodes tid ≤ (numNodes : Int))
    (l : List (ℕ × CircuitElement)) (acc : Mat × Vec) {r c : ℕ}
    (hr : numNodes ≤ r) (hl : ∀ q ∈ l, numNodes + q.1 ≠ r) :
    (l.foldl (stampVS nodes numNodes) acc).1 r c = acc.1 r c := by
  induction l generalizing acc with
  | nil => rfl
  | cons q rest ih =>
    rw [List.foldl_cons, ih _ (fun q hq => hl q (List.mem_cons_of_mem _ hq)),
      stampVS_frame_A nodes hbnd acc q hr
        (fun he => hl q (List.mem_cons_self q rest) he.symm)]

theorem foldl_stampVS_frame_z (nodes : List ElectricalNode) (numNodes : ℕ)
    (l : List (ℕ × CircuitElement)) (acc : Mat × Vec) {r : ℕ}
    (hl : ∀ q ∈ l, numNodes + q.1 ≠ r) :
    (l.foldl (stampVS nodes numNodes) acc).2 r = acc.2 r := by
  induction l generalizing acc with
  | nil => rfl
  | cons q rest ih =>
    rw [List.foldl_cons, ih _ (fun q hq => hl q (List.mem_cons_of_mem _ hq)),
      stampVS_frame_z nodes numNodes acc q
        (fun he => hl q (List.mem_cons_self q rest) he.symm)]

theorem stampVS_row_self (nodes : List ElectricalNode) {numNodes : ℕ}
    (hbnd : ∀ tid, getNodeIndex nodes tid ≤ (numNodes : Int))
    (acc : Mat × Vec) (k : ℕ) (src : CircuitElement)
    (hty : src.type = ElementType.VoltageSource) :
    (∀ c, (stampVS nodes numNodes acc (k, src)).1 (numNodes + k) c =
      (if getNodeIndex nodes (termId src 1) > 0 ∧
          c = ndx (getNodeIndex nodes (termId src 1)) then -1
       else if getNodeIndex nodes (termId src 0) > 0 ∧
          c = ndx (getNodeIndex nodes (termId src 0)) then 1
       else acc.1 (numNodes + k) c)) ∧
    (stampVS nodes numNodes acc (k, src)).2 (numNodes + k) = src.value := by
  rw [stampVS]
  simp only [hty]
  constructor
  · intro c
    rw [vsStampC_row, vsStampB_frame (hbnd _) (hbnd _) _ _ (Nat.le_add_right _ _)]
  · rw [vset_apply]
    rw [if_pos rfl]

theorem enumFrom_fst_ge {α : Type} (l : List α) (s : ℕ) :
    ∀ q ∈ List.enumFrom s l, s ≤ q.1 := by
  induction l generalizing s with
  | nil => intro q hq; cases hq
  | cons x rest ih =>
    intro q hq
    rcases List.mem_cons.mp hq with rfl | hq'
    · exact le_refl s
    · exact le_trans (Nat.le_succ s) (ih (s + 1) q hq')

/-- The row and `z` entry of voltage source number `k` after the whole
voltage-source loop (processed with start index `s`). -/
theorem foldl_stampVS_enumFrom_row (nodes : List ElectricalNode) {numNodes : ℕ}
    (hbnd : ∀ tid, getNodeIndex nodes tid ≤ (numNodes : Int))
    (srcs : List CircuitElement) (s : ℕ) (acc : Mat × Vec) (k : ℕ)
    (hk : k < srcs.length)
    (hty : (srcs.get ⟨k, hk⟩).type = ElementType.VoltageSource) :
    (∀ c, (List.foldl (stampVS nodes numNodes) acc (List.enumFrom s srcs)).1
        (numNodes + (s + k)) c =
      (if getNodeIndex nodes (termId (srcs.get ⟨k, hk⟩) 1) > 0 ∧
          c = ndx (getNodeIndex nodes (termId (srcs.get ⟨k, hk⟩) 1)) then -1
       else if getNodeIndex nodes (termId (srcs.get ⟨k, hk⟩) 0) > 0 ∧
          c = ndx (getNodeIndex nodes (termId (srcs.get ⟨k, hk⟩) 0)) then 1
       else acc.1 (numNodes + (s + k)) c)) ∧
    (List.foldl (stampVS nodes numNodes) acc (List.enumFrom s srcs)).2
        (numNodes + (s + k)) = (srcs.get ⟨k, hk⟩).value := by
  induction srcs generalizing s acc k with
  | nil => cases hk
  | cons src rest ih =>
    rw [List.enumFrom, List.foldl_cons]
    cases k with
    | zero =>
      have hfr : ∀ q ∈ List.enumFrom (s + 1) rest, numNodes + q.1 ≠ numNodes + (s + 0) := by
        intro q hq he
        have := enumFrom_fst_ge rest (s + 1) q hq
        omega
      have hrow := stampVS_row_self nodes hbnd acc s src hty
      constructor
      · intro c
        rw [foldl_stampVS_frame_A nodes hbnd _ _ (Nat.le_add_right _ _) hfr]
        have : numNodes + s = numNodes + (s + 0) := by omega
        rw [← this]
        exact hrow.1 c
      · rw [foldl_stampVS_frame_z nodes numNodes _ _ hfr]
        have : numNodes + s = numNodes + (s + 0) := by omega
        rw [← this]
        exact hrow.2
    | succ k' =>
      have hk' : k' < rest.length := by
        simpa using Nat.lt_of_succ_lt_succ hk
      have hidx : s + (k' + 1) = (s + 1) + k' := by omega
      have hget : (src :: rest).get ⟨k' + 1, hk⟩ = rest.get ⟨k', hk'⟩ := rfl
      have hty' : (rest.get ⟨k', hk'⟩).type = ElementType.VoltageSource := by
        rw [← hget]; exact hty
      have := ih (s + 1) (stampVS nodes numNodes acc (s, src)) k' hk' hty'
      constructor
      · intro c
        rw [hget, hidx]
        rw [(this.1 c)]
        have hacc : (stampVS nodes numNodes acc (s, src)).1 (numNodes + (s + 1 + k')) c
            = acc.1 (numNodes + (s + 1 + k')) c :=
          stampVS_frame_A nodes hbnd acc (s, src) (Nat.le_add_right _ _) (by omega)
        rw [hacc]
      · rw [hget, hidx, this.2]
/-- The fully assembled row and right-hand side of independent voltage
source number `k`: `+1` at its positive node's column, `-1` at its
negative node's column, `0` elsewhere, with `z` equal to its value. -/
theorem assemble_vsRow (e : List CircuitElement) (w : List Wire) (k : ℕ)
    (hk : k < (vSourcesOf e).length)
    (hty : ((vSourcesOf e).get ⟨k, hk⟩).type = ElementType.VoltageSource) :
    (∀ c, (assemble e w).1 (((extractNodes e w).length - 1) + k) c =
      (if getNodeIndex (extractNodes e w) (termId ((vSourcesOf e).get ⟨k, hk⟩) 1) > 0 ∧
          c = ndx (getNodeIndex (extractNodes e w)
            (termId ((vSourcesOf e).get ⟨k, hk⟩) 1)) then -1
       else if getNodeIndex (extractNodes e w) (termId ((vSourcesOf e).get ⟨k, hk⟩) 0) > 0 ∧
          c = ndx (getNodeIndex (extractNodes e w)
            (termId ((vSourcesOf e).get ⟨k, hk⟩) 0)) then 1
       else 0)) ∧
    (assemble e w).2 (((extractNodes e w).length - 1) + k)
      = ((vSourcesOf e).get ⟨k, hk⟩).value := by
  have hbnd : ∀ tid, getNodeIndex (extractNodes e w) tid ≤
      (((extractNodes e w).length - 1 : ℕ) : Int) := getNodeIndex_le e w
  have henum : (vSourcesOf e).enum = List.enumFrom 0 (vSourcesOf e) := rfl
  have hmain := foldl_stampVS_enumFrom_row (extractNodes e w) hbnd (vSourcesOf e) 0
    ((addGmin ((extractNodes e w).length - 1)
        (e.foldl (stampGz (extractNodes e w)) ((fun _ _ => 0), (fun _ => 0))).1,
      (e.foldl (stampGz (extractNodes e w)) ((fun _ _ => 0), (fun _ => 0))).2))
    k hk hty
  have hzeros : ∀ c, (addGmin ((extractNodes e w).length - 1)
      (e.foldl (stampGz (extractNodes e w)) ((fun _ _ => 0), (fun _ => 0))).1)
      (((extractNodes e w).length - 1) + k) c = 0 := by
    intro c
    rw [addGmin_apply, if_neg (by omega),
      foldl_stampGz_frame_A (extractNodes e w) hbnd e _ (Or.inl (Nat.le_add_right _ _))]
  constructor
  · intro c
    have h0k : (0:ℕ) + k = k := by omega
    have := hmain.1 c
    rw [h0k] at this
    rw [show (assemble e w).1 = ((vSourcesOf e).enum.foldl
        (stampVS (extractNodes e w) ((extractNodes e w).length - 1))
        ((addGmin ((extractNodes e w).length - 1)
            (e.foldl (stampGz (extractNodes e w)) ((fun _ _ => 0), (fun _ => 0))).1,
          (e.foldl (stampGz (extractNodes e w)) ((fun _ _ => 0), (fun _ => 0))).2))).1
      from rfl, henum, this]
    simp only [hzeros]
  · have h0k : (0:ℕ) + k = k := by omega
    have := hmain.2
    rw [h0k] at this
    rw [show (assemble e w).2 = ((vSourcesOf e).enum.foldl
        (stampVS (extractNodes e w) ((extractNodes e w).length - 1))
        ((addGmin ((extractNodes e w).length - 1)
            (e.foldl (stampGz (extractNodes e w)) ((fun _ _ => 0), (fun _ => 0))).1,
          (e.foldl (stampGz (extractNodes e w)) ((fun _ _ => 0), (fun _ => 0))).2))).2
      from rfl, henum, this]

/-- The node-block rows of the assembled right-hand side hold exactly
the summed current-source contributions: each current source adds its
value into the row of its terminal-0 node and subtracts it from the row
of its terminal-1 node. -/
theorem assemble_z_node (e : List CircuitElement) (w : List Wire) (i : ℕ)
    (hi : i < (extractNodes e w).length - 1) :
    (assemble e w).2 i =
      (e.map (fun el => csContrib (extractNodes e w) el i)).sum := by
  have hfr : ∀ q ∈ (vSourcesOf e).enum,
      ((extractNodes e w).length - 1) + q.1 ≠ i := by
    intro q hq
    omega
  rw [show (assemble e w).2 = ((vSourcesOf e).enum.foldl
      (stampVS (extractNodes e w) ((extractNodes e w).length - 1))
      ((addGmin ((extractNodes e w).length - 1)
          (e.foldl (stampGz (extractNodes e w)) ((fun _ _ => 0), (fun _ => 0))).1,
        (e.foldl (stampGz (extractNodes e w)) ((fun _ _ => 0), (fun _ => 0))).2))).2
    from rfl]
  rw [foldl_stampVS_frame_z _ _ _ _ hfr]
  rw [foldl_stampGz_z_apply]
  simp

theorem sum_spike {N : ℕ} (a : Fin N) (x : Fin N → ℚ) (c : ℚ) :
    (∑ j : Fin N, (if j = a then c else 0) * x j) = c * x a := by
  rw [Finset.sum_congr rfl (fun j _ => by rw [ite_mul, zero_mul])]
  rw [Finset.sum_ite_eq' Finset.univ a (fun j => c * x j)]
  simp

theorem sum_two_spikes {N : ℕ} (a b : Fin N) (hab : a ≠ b) (x : Fin N → ℚ)
    (c₁ c₂ : ℚ) :
    (∑ j : Fin N, (if j = a then c₁ else if j = b then c₂ else 0) * x j)
      = c₁ * x a + c₂ * x b := by
  have hfun : ∀ j : Fin N, (if j = a then c₁ else if j = b then c₂ else 0) * x j
      = (if j = a then c₁ else 0) * x j + (if j = b then c₂ else 0) * x j := by
    intro j
    by_cases hja : j = a
    · subst hja
      rw [if_pos rfl, if_pos rfl, if_neg hab, zero_mul, add_zero]
    · rw [if_neg hja, if_neg hja, zero_mul, zero_add]
  rw [Finset.sum_congr rfl (fun j _ => hfun j), Finset.sum_add_distrib,
    sum_spike, sum_spike]
theorem mulVec_apply_sum {n : ℕ} (M : Matrix (Fin n) (Fin n) ℚ) (v : Fin n → ℚ)
    (i : Fin n) : M.mulVec v i = ∑ j, M i j * v j := by
  simp [Matrix.mulVec, Matrix.dotProduct]

/-- In a successfully solved circuit, independent voltage source number
`k` of the `vSources` list, when both of its terminals resolve and they
lie on distinct nodes, enforces
`V(node of terminals[0]) - V(node of terminals[1]) = value`:
terminal 0 is the positive terminal of the solver. -/
theorem vsource_equation (e : List CircuitElement) (w : List Wire)
    (hne : solveCircuit e w ≠ emptyResult)
    (k : ℕ) (hk : k < (vSourcesOf e).length)
    (hty : ((vSourcesOf e).get ⟨k, hk⟩).type = ElementType.VoltageSource)
    (hpos0 : 0 ≤ getNodeIndex (extractNodes e w) (termId ((vSourcesOf e).get ⟨k, hk⟩) 0))
    (hneg0 : 0 ≤ getNodeIndex (extractNodes e w) (termId ((vSourcesOf e).get ⟨k, hk⟩) 1))
    (hdiff : getNodeIndex (extractNodes e w) (termId ((vSourcesOf e).get ⟨k, hk⟩) 0) ≠
        getNodeIndex (extractNodes e w) (termId ((vSourcesOf e).get ⟨k, hk⟩) 1)) :
    nvGet (solveCircuit e w).nodeVoltages
        (getNodeIndex (extractNodes e w) (termId ((vSourcesOf e).get ⟨k, hk⟩) 0))
      - nvGet (solveCircuit e w).nodeVoltages
        (getNodeIndex (extractNodes e w) (termId ((vSourcesOf e).get ⟨k, hk⟩) 1))
      = ((vSourcesOf e).get ⟨k, hk⟩).value := by
  obtain ⟨h1, h2, h3⟩ := solveCircuit_ne_empty_conditions e w hne
  have hnv : (solveCircuit e w).nodeVoltages =
      nodeVoltagesOf ((extractNodes e w).length - 1) (solvedX e w) := by
    rw [solveCircuit_success e w h1 h2 h3]
  have hposle := getNodeIndex_le e w (termId ((vSourcesOf e).get ⟨k, hk⟩) 0)
  have hnegle := getNodeIndex_le e w (termId ((vSourcesOf e).get ⟨k, hk⟩) 1)
  have hrN : (extractNodes e w).length - 1 + k < mnaSize e w := by
    rw [mnaSize]; omega
  obtain ⟨hrowA, hrowz⟩ := assemble_vsRow e w k hk hty
  have hrow := congrFun (@mulVec_solved (mnaSize e w) (systemMatrix e w) (rhsVec e w) h3)
    (⟨(extractNodes e w).length - 1 + k, hrN⟩ : Fin (mnaSize e w))
  rw [mulVec_apply_sum] at hrow
  have hM : ∀ j : Fin (mnaSize e w),
      systemMatrix e w ⟨(extractNodes e w).length - 1 + k, hrN⟩ j =
      (if getNodeIndex (extractNodes e w) (termId ((vSourcesOf e).get ⟨k, hk⟩) 1) > 0 ∧
          (j : ℕ) = ndx (getNodeIndex (extractNodes e w)
            (termId ((vSourcesOf e).get ⟨k, hk⟩) 1)) then -1
       else if getNodeIndex (extractNodes e w)
            (termId ((vSourcesOf e).get ⟨k, hk⟩) 0) > 0 ∧
          (j : ℕ) = ndx (getNodeIndex (extractNodes e w)
            (termId ((vSourcesOf e).get ⟨k, hk⟩) 0)) then 1
       else 0) := fun j => hrowA j.1
  have hz : rhsVec e w ⟨(extractNodes e w).length - 1 + k, hrN⟩ =
      ((vSourcesOf e).get ⟨k, hk⟩).value := hrowz
  rw [hz] at hrow
  simp only [hM] at hrow
  rw [hnv]
  rw [nvGet_nodeVoltagesOf_nonneg _ _ _ hpos0 hposle,
    nvGet_nodeVoltagesOf_nonneg _ _ _ hneg0 hnegle]
  by_cases cpos : getNodeIndex (extractNodes e w)
      (termId ((vSourcesOf e).get ⟨k, hk⟩) 0) > 0
  · have hapos : ndx (getNodeIndex (extractNodes e w)
        (termId ((vSourcesOf e).get ⟨k, hk⟩) 0)) < mnaSize e w := by
      have := ndx_lt cpos hposle
      rw [mnaSize]; omega
    have hca : ∀ j : Fin (mnaSize e w),
        ((j : ℕ) = ndx (getNodeIndex (extractNodes e w)
          (termId ((vSourcesOf e).get ⟨k, hk⟩) 0)))
        = (j = ⟨ndx (getNodeIndex (extractNodes e w)
            (termId ((vSourcesOf e).get ⟨k, hk⟩) 0)), hapos⟩) := fun j => by
      rw [eq_iff_iff]
      exact ⟨fun h => Fin.ext h, fun h => congrArg Fin.val h⟩
    have hxa : solvedX e w ((getNodeIndex (extractNodes e w)
        (termId ((vSourcesOf e).get ⟨k, hk⟩) 0)).toNat - 1) =
        ((matInv (systemMatrix e w)).mulVec (rhsVec e w))
          ⟨ndx (getNodeIndex (extractNodes e w)
            (termId ((vSourcesOf e).get ⟨k, hk⟩) 0)), hapos⟩ := by
      have hnx : (getNodeIndex (extractNodes e w)
          (termId ((vSourcesOf e).get ⟨k, hk⟩) 0)).toNat - 1 =
          ndx (getNodeIndex (extractNodes e w)
            (termId ((vSourcesOf e).get ⟨k, hk⟩) 0)) := by
        rw [ndx]; omega
      rw [hnx]
      simp only [solvedX]
      rw [dif_pos hapos]
    by_cases cneg : getNodeIndex (extractNodes e w)
        (termId ((vSourcesOf e).get ⟨k, hk⟩) 1) > 0
    · have hbpos : ndx (getNodeIndex (extractNodes e w)
          (termId ((vSourcesOf e).get ⟨k, hk⟩) 1)) < mnaSize e w := by
        have := ndx_lt cneg hnegle
        rw [mnaSize]; omega
      have hcb : ∀ j : Fin (mnaSize e w),
          ((j : ℕ) = ndx (getNodeIndex (extractNodes e w)
            (termId ((vSourcesOf e).get ⟨k, hk⟩) 1)))
          = (j = ⟨ndx (getNodeIndex (extractNodes e w)
              (termId ((vSourcesOf e).get ⟨k, hk⟩) 1)), hbpos⟩) := fun j => by
        rw [eq_iff_iff]
        exact ⟨fun h => Fin.ext h, fun h => congrArg Fin.val h⟩
      have hab : (⟨ndx (getNodeIndex (extractNodes e w)
            (termId ((vSourcesOf e).get ⟨k, hk⟩) 1)), hbpos⟩ :
            Fin (mnaSize e w)) ≠
          ⟨ndx (getNodeIndex (extractNodes e w)
            (termId ((vSourcesOf e).get ⟨k, hk⟩) 0)), hapos⟩ := by
        intro hcontra
        have hv := congrArg Fin.val hcontra
        simp only [ndx] at hv
        omega
      simp only [cpos, cneg, true_and, hca, hcb] at hrow
      rw [sum_two_spikes _ _ hab
        ((matInv (systemMatrix e w)).mulVec (rhsVec e w)) (-1) 1] at hrow
      have hxb : solvedX e w ((getNodeIndex (extractNodes e w)
          (termId ((vSourcesOf e).get ⟨k, hk⟩) 1)).toNat - 1) =
          ((matInv (systemMatrix e w)).mulVec (rhsVec e w))
            ⟨ndx (getNodeIndex (extractNodes e w)
              (termId ((vSourcesOf e).get ⟨k, hk⟩) 1)), hbpos⟩ := by
        have hnx : (getNodeIndex (extractNodes e w)
            (termId ((vSourcesOf e).get ⟨k, hk⟩) 1)).toNat - 1 =
            ndx (getNodeIndex (extractNodes e w)
              (termId ((vSourcesOf e).get ⟨k, hk⟩) 1)) := by
          rw [ndx]; omega
        rw [hnx]
        simp only [solvedX]
        rw [dif_pos hbpos]
      rw [if_neg (by omega), if_neg (by omega), hxa, hxb]
      linarith [hrow]
    · have hneg_eq : getNodeIndex (extractNodes e w)
          (termId ((vSourcesOf e).get ⟨k, hk⟩) 1) = 0 := by omega
      simp only [cneg, false_and, if_false, cpos, true_and, hca] at hrow
      rw [sum_spike _ ((matInv (systemMatrix e w)).mulVec (rhsVec e w)) 1] at hrow
      rw [if_neg (by omega), if_pos hneg_eq, hxa]
      linarith [hrow]
  · have hpos_eq : getNodeIndex (extractNodes e w)
        (termId ((vSourcesOf e).get ⟨k, hk⟩) 0) = 0 := by omega
    have cneg : getNodeIndex (extractNodes e w)
        (termId ((vSourcesOf e).get ⟨k, hk⟩) 1) > 0 := by
      rw [hpos_eq] at hdiff
      omega
    have hbpos : ndx (getNodeIndex (extractNodes e w)
        (termId ((vSourcesOf e).get ⟨k, hk⟩) 1)) < mnaSize e w := by
      have := ndx_lt cneg hnegle
      rw [mnaSize]; omega
    have hcb : ∀ j : Fin (mnaSize e w),
        ((j : ℕ) = ndx (getNodeIndex (extractNodes e w)
          (termId ((vSourcesOf e).get ⟨k, hk⟩) 1)))
        = (j = ⟨ndx (getNodeIndex (extractNodes e w)
            (termId ((vSourcesOf e).get ⟨k, hk⟩) 1)), hbpos⟩) := fun j => by
      rw [eq_iff_iff]
      exact ⟨fun h => Fin.ext h, fun h => congrArg Fin.val h⟩
    simp only [cpos, false_and, if_false, cneg, true_and, hcb] at hrow
    rw [sum_spike _ ((matInv (systemMatrix e w)).mulVec (rhsVec e w)) (-1)] at hrow
    have hxb : solvedX e w ((getNodeIndex (extractNodes e w)
        (termId ((vSourcesOf e).get ⟨k, hk⟩) 1)).toNat - 1) =
        ((matInv (systemMatrix e w)).mulVec (rhsVec e w))
          ⟨ndx (getNodeIndex (extractNodes e w)
            (termId ((vSourcesOf e).get ⟨k, hk⟩) 1)), hbpos⟩ := by
      have hnx : (getNodeIndex (extractNodes e w)
          (termId ((vSourcesOf e).get ⟨k, hk⟩) 1)).toNat - 1 =
          ndx (getNodeIndex (extractNodes e w)
            (termId ((vSourcesOf e).get ⟨k, hk⟩) 1)) := by
        rw [ndx]; omega
      rw [hnx]
      simp only [solvedX]
      rw [dif_pos hbpos]
    rw [if_pos hpos_eq, if_neg (by omega), hxb]
    linarith [hrow]
/-- A current source whose two terminals resolve to distinct non-ground
nodes contributes `+value` to the right-hand-side row of the node of
terminal 0 (current injected into that node) and `-value` to the row of
the node of terminal 1. -/
theorem csContrib_rows (nodes : List ElectricalNode) (el : CircuitElement)
    (hty : el.type = ElementType.CurrentSource)
    (cpos : getNodeIndex nodes (termId el 0) > 0)
    (cneg : getNodeIndex nodes (termId el 1) > 0)
    (hdiff : getNodeIndex nodes (termId el 0) ≠ getNodeIndex nodes (termId el 1)) :
    csContrib nodes el (ndx (getNodeIndex nodes (termId el 0))) = el.value ∧
    csContrib nodes el (ndx (getNodeIndex nodes (termId el 1))) = -el.value := by
  have hnd : ndx (getNodeIndex nodes (termId el 0)) ≠
      ndx (getNodeIndex nodes (termId el 1)) := by
    rw [ndx, ndx]
    omega
  constructor
  · simp only [csContrib, hty]
    rw [if_pos ⟨cpos, trivial⟩, if_neg (fun hc => hnd hc.2), add_zero]
  · simp only [csContrib, hty]
    rw [if_neg (fun hc => hnd hc.2.symm), if_pos ⟨cneg, trivial⟩, zero_add]

/-- C6 counterexample: at example A the claimed polarity
`V(node of terminals[1]) - V(node of terminals[0]) = value` fails for
the 5 V source: the solved difference is `-5`, not `5`.  The solver
treats `terminals[0]` as the positive terminal. -/
theorem C6_cex :
    elV ∈ elemsA ∧ elV.type = ElementType.VoltageSource ∧ elV.value = 5 ∧
    solveCircuit elemsA wiresA ≠ emptyResult ∧
    nvGet (solveCircuit elemsA wiresA).nodeVoltages
        (getNodeIndex (extractNodes elemsA wiresA) (termId elV 1))
      - nvGet (solveCircuit elemsA wiresA).nodeVoltages
        (getNodeIndex (extractNodes elemsA wiresA) (termId elV 0))
      = -5 ∧ (-5 : ℚ) ≠ (5 : ℚ) := by
  refine ⟨by decide, rfl, rfl, exA_ne_empty, ?_, by norm_num⟩
  rw [exA_result, exA_extract]
  show nvGet [(0, 0), (1, -5)] (getNodeIndex nodesA (termId elV 1))
      - nvGet [(0, 0), (1, -5)] (getNodeIndex nodesA (termId elV 0)) = -5
  rw [show getNodeIndex nodesA (termId elV 1) = 1 from rfl,
    show getNodeIndex nodesA (termId elV 0) = 0 from rfl,
    show nvGet [(0, 0), (1, -5)] 1 = -5 from rfl,
    show nvGet [(0, 0), (1, -5)] 0 = 0 from rfl]
  norm_num

/-- C6 (amended): the solver treats `terminals[0]` of a 2-terminal
source as the POSITIVE terminal, opposite to the claim.  (a) In a
successfully solved circuit an independent voltage source whose two
terminals resolve to distinct nodes enforces
`V(node of terminals[0]) - V(node of terminals[1]) = value`.  (b) A
current source whose terminals resolve to distinct non-ground nodes
contributes `+value` to the right-hand-side row of the node of
`terminals[0]` — current injected into it — and `-value` to the row of
the node of `terminals[1]`.  (c) Every node row of the assembled
right-hand side is exactly the sum of those per-element current-source
contributions. -/
theorem C6_source_polarity :
    (∀ (e : List CircuitElement) (w : List Wire), solveCircuit e w ≠ emptyResult →
      ∀ (k : ℕ) (hk : k < (vSourcesOf e).length),
      ((vSourcesOf e).get ⟨k, hk⟩).type = ElementType.VoltageSource →
      0 ≤ getNodeIndex (extractNodes e w) (termId ((vSourcesOf e).get ⟨k, hk⟩) 0) →
      0 ≤ getNodeIndex (extractNodes e w) (termId ((vSourcesOf e).get ⟨k, hk⟩) 1) →
      getNodeIndex (extractNodes e w) (termId ((vSourcesOf e).get ⟨k, hk⟩) 0) ≠
        getNodeIndex (extractNodes e w) (termId ((vSourcesOf e).get ⟨k, hk⟩) 1) →
      nvGet (solveCircuit e w).nodeVoltages
          (getNodeIndex (extractNodes e w) (termId ((vSourcesOf e).get ⟨k, hk⟩) 0))
        - nvGet (solveCircuit e w).nodeVoltages
          (getNodeIndex (extractNodes e w) (termId ((vSourcesOf e).get ⟨k, hk⟩) 1))
        = ((vSourcesOf e).get ⟨k, hk⟩).value) ∧
    (∀ (nodes : List ElectricalNode) (el : CircuitElement),
      el.type = ElementType.CurrentSource →
      getNodeIndex nodes (termId el 0) > 0 →
      getNodeIndex nodes (termId el 1) > 0 →
      getNodeIndex nodes (termId el 0) ≠ getNodeIndex nodes (termId el 1) →
      csContrib nodes el (ndx (getNodeIndex nodes (termId el 0))) = el.value ∧
      csContrib nodes el (ndx (getNodeIndex nodes (termId el 1))) = -el.value) ∧
    (∀ (e : List CircuitElement) (w : List Wire) (i : ℕ),
      i < (extractNodes e w).length - 1 →
      (assemble e w).2 i =
        (e.map (fun el => csContrib (extractNodes e w) el i)).sum) := by
  refine ⟨?_, ?_, ?_⟩
  · intro e w hne k hk hty hpos0 hneg0 hdiff
    exact vsource_equation e w hne k hk hty hpos0 hneg0 hdiff
  · intro nodes el hty cpos cneg hdiff
    exact csContrib_rows nodes el hty cpos cneg hdiff
  · intro e w i hi
    exact assemble_z_node e w i hi

/-- Witness for the amended C6: part (a) applied to the 5 V source of
example A.  Terminal 0 of `elV` lies on the ground node 0 and terminal 1
on node 1, and the solved difference is `0 - (-5) = 5`, the source
value. -/
theorem C6_source_polarity_witness :
    nvGet (solveCircuit elemsA wiresA).nodeVoltages
        (getNodeIndex (extractNodes elemsA wiresA)
          (termId ((vSourcesOf elemsA).get ⟨0, by decide⟩) 0))
      - nvGet (solveCircuit elemsA wiresA).nodeVoltages
        (getNodeIndex (extractNodes elemsA wiresA)
          (termId ((vSourcesOf elemsA).get ⟨0, by decide⟩) 1))
      = ((vSourcesOf elemsA).get ⟨0, by decide⟩).value :=
  C6_source_polarity.1 elemsA wiresA exA_ne_empty 0 (by decide) rfl
    (by decide) (by decide) (by decide)
/-! ## Record lookups through the derived-quantity loops -/

theorem lookup_none_of_not_any (r : List (String × ℚ)) (k : String)
    (h : r.any (fun q => q.1 = k) = false) : List.lookup k r = none := by
  rw [List.lookup_eq_none_iff]
  intro q hq
  have := List.any_eq_false.mp h q hq
  simp only [decide_eq_true_eq] at this
  simp only [bne_iff_ne, ne_eq]
  intro hc
  exact this hc.symm

theorem lookup_map_overwrite (r : List (String × ℚ)) (k : String) (v : ℚ)
    (h : r.any (fun q => q.1 = k) = true) :
    List.lookup k (r.map fun q => if q.1 = k then (k, v) else q) = some v := by
  induction r with
  | nil => simp at h
  | cons q rest ih =>
    rw [List.map_cons]
    by_cases hq : q.1 = k
    · rw [if_pos hq]
      show List.lookup k ((k, v) :: _) = some v
      rw [List.lookup]
      simp
    · rw [if_neg hq]
      have hrest : rest.any (fun q => q.1 = k) = true := by
        rw [List.any_cons] at h
        rcases Bool.or_eq_true_iff.mp h with hh | hh
        · exact absurd (of_decide_eq_true hh) hq
        · exact hh
      cases q with
      | mk qk qv =>
        rw [List.lookup]
        have hne : (k == qk) = false := by
          rw [beq_eq_false_iff_ne]
          intro hc
          exact hq hc.symm
        rw [hne]
        exact ih hrest

theorem lookup_map_overwrite_ne (r : List (String × ℚ)) (k k' : String) (v : ℚ)
    (hne : k' ≠ k) :
    List.lookup k' (r.map fun q => if q.1 = k then (k, v) else q) =
      List.lookup k' r := by
  induction r with
  | nil => rfl
  | cons q rest ih =>
    rw [List.map_cons]
    cases q with
    | mk qk qv =>
      by_cases hq : qk = k
      · rw [show (if (qk, qv).1 = k then (k, v) else (qk, qv)) = (k, v) from by
          rw [if_pos hq]]
        rw [List.lookup, List.lookup]
        rw [show (k' == k) = false from beq_eq_false_iff_ne.mpr hne,
          show (k' == qk) = false from beq_eq_false_iff_ne.mpr (hq ▸ hne)]
        exact ih
      · rw [show (if (qk, qv).1 = k then (k, v) else (qk, qv)) = (qk, qv) from by
          rw [if_neg hq]]
        rw [List.lookup, List.lookup]
        by_cases hk : k' = qk
        · rw [show (k' == qk) = true from beq_iff_eq.mpr hk]
        · rw [show (k' == qk) = false from beq_eq_false_iff_ne.mpr hk]
          exact ih

/-- Setting a key in a record makes its lookup return the new value. -/
theorem recordSet_lookup_self (r : List (String × ℚ)) (k : String) (v : ℚ) :
    List.lookup k (recordSet r k v) = some v := by
  rw [recordSet]
  by_cases h : r.any (fun q => q.1 = k) = true
  · rw [if_pos h]
    exact lookup_map_overwrite r k v h
  · rw [if_neg h]
    rw [List.lookup_append, lookup_none_of_not_any r k (Bool.eq_false_iff.mpr h)]
    rw [Option.none_or]
    rw [List.lookup]
    simp

/-- Setting one key leaves every other key's lookup unchanged. -/
theorem recordSet_lookup_ne (r : List (String × ℚ)) (k k' : String) (v : ℚ)
    (hne : k' ≠ k) :
    List.lookup k' (recordSet r k v) = List.lookup k' r := by
  rw [recordSet]
  by_cases h : r.any (fun q => q.1 = k) = true
  · rw [if_pos h]
    exact lookup_map_overwrite_ne r k k' v hne
  · rw [if_neg h]
    rw [List.lookup_append]
    rw [show List.lookup k' [(k, v)] = none from by
      rw [List.lookup]
      rw [show (k' == k) = false from beq_eq_false_iff_ne.mpr hne]
      rfl]
    rw [Option.or_none]

/-- The resistor branch of `deriveElem`, spelled out. -/
theorem deriveElem_resistor (nodes : List ElectricalNode) (nv : List (Int × ℚ))
    (acc : List (String × ℚ) × List (String × ℚ)) (el : CircuitElement)
    (hty : el.type = ElementType.Resistor) :
    deriveElem nodes nv acc el =
      (recordSet acc.1 el.id (resistorCurrent nodes nv el),
       recordSet acc.2 el.id
         |resistorCurrent nodes nv el * resistorCurrent nodes nv el * el.value|) := by
  simp only [deriveElem, hty, resistorCurrent]

/-- A `deriveElem` step never touches record keys other than the
element's own id. -/
theorem deriveElem_lookup_ne (nodes : List ElectricalNode) (nv : List (Int × ℚ))
    (acc : List (String × ℚ) × List (String × ℚ)) (el : CircuitElement)
    (k : String) (hk : k ≠ el.id) :
    List.lookup k (deriveElem nodes nv acc el).1 = List.lookup k acc.1 ∧
    List.lookup k (deriveElem nodes nv acc el).2 = List.lookup k acc.2 := by
  cases hty : el.type with
  | Resistor =>
    simp only [deriveElem, hty]
    exact ⟨recordSet_lookup_ne _ _ _ _ hk, recordSet_lookup_ne _ _ _ _ hk⟩
  | CurrentSource =>
    simp only [deriveElem, hty]
    exact ⟨recordSet_lookup_ne _ _ _ _ hk, recordSet_lookup_ne _ _ _ _ hk⟩
  | VoltageSource =>
    simp only [deriveElem, hty]
    exact ⟨trivial, trivial⟩
  | VCVS =>
    simp only [deriveElem, hty]
    exact ⟨trivial, trivial⟩

/-- Folding `deriveElem` over elements none of which carry key `k`
leaves that key's lookups unchanged. -/
theorem foldl_deriveElem_frame (nodes : List ElectricalNode) (nv : List (Int × ℚ))
    (l : List CircuitElement) (acc : List (String × ℚ) × List (String × ℚ))
    (k : String) (hk : ∀ el ∈ l, k ≠ el.id) :
    List.lookup k (l.foldl (deriveElem nodes nv) acc).1 = List.lookup k acc.1 ∧
    List.lookup k (l.foldl (deriveElem nodes nv) acc).2 = List.lookup k acc.2 := by
  induction l generalizing acc with
  | nil => exact ⟨rfl, rfl⟩
  | cons el rest ih =>
    rw [List.foldl_cons]
    have hstep := deriveElem_lookup_ne nodes nv acc el k (hk el (List.mem_cons_self el rest))
    have hrest := ih (deriveElem nodes nv acc el)
      (fun el2 h2 => hk el2 (List.mem_cons_of_mem el h2))
    exact ⟨hrest.1.trans hstep.1, hrest.2.trans hstep.2⟩

/-- After the element loop, a resistor with a unique id reads back its
Ohm's-law current and its absolute power. -/
theorem foldl_deriveElem_lookup (nodes : List ElectricalNode) (nv : List (Int × ℚ))
    (l : List CircuitElement) (r : CircuitElement) (hr : r ∈ l)
    (hty : r.type = ElementType.Resistor)
    (hnd : (l.map fun el => el.id).Nodup)
    (acc : List (String × ℚ) × List (String × ℚ)) :
    List.lookup r.id (l.foldl (deriveElem nodes nv) acc).1 =
      some (resistorCurrent nodes nv r) ∧
    List.lookup r.id (l.foldl (deriveElem nodes nv) acc).2 =
      some |resistorCurrent nodes nv r * resistorCurrent nodes nv r * r.value| := by
  induction l generalizing acc with
  | nil => cases hr
  | cons el rest ih =>
    rw [List.foldl_cons]
    rw [List.map_cons, List.nodup_cons] at hnd
    rcases List.mem_cons.mp hr with heq | hmem
    · subst heq
      have hfr : ∀ el2 ∈ rest, r.id ≠ el2.id := by
        intro el2 h2 hc
        exact hnd.1 (hc ▸ List.mem_map_of_mem (fun el => el.id) h2)
      rw [deriveElem_resistor nodes nv acc r hty]
      have hframe := foldl_deriveElem_frame nodes nv rest
        (recordSet acc.1 r.id (resistorCurrent nodes nv r),
         recordSet acc.2 r.id
           |resistorCurrent nodes nv r * resistorCurrent nodes nv r * r.value|)
        r.id hfr
      exact ⟨hframe.1.trans (recordSet_lookup_self _ _ _),
        hframe.2.trans (recordSet_lookup_self _ _ _)⟩
    · exact ih hmem hnd.2 (deriveElem nodes nv acc el)
/-- C7 counterexample: with a negative resistance (example N, a 1 V
source across a −1 Ω resistor) the solver's returned power is
`|I² R| = 1`, whereas the claim's formula `|I|² · value` gives `−1`.
The claim's power equation fails; the returned power is `|I² R|`. -/
theorem C7_cex :
    elRn ∈ elemsN ∧ elRn.type = ElementType.Resistor ∧
    solveCircuit elemsN wiresA ≠ emptyResult ∧
    List.lookup elRn.id (solveCircuit elemsN wiresA).elementCurrents = some (-1) ∧
    List.lookup elRn.id (solveCircuit elemsN wiresA).elementPower = some 1 ∧
    |(-1 : ℚ)| ^ 2 * elRn.value = -1 ∧ ((1 : ℚ)) ≠ -1 := by
  refine ⟨by decide, rfl, exN_ne_empty, ?_, ?_, ?_, by norm_num⟩
  · rw [exN_result]
    rfl
  · rw [exN_result]
    rfl
  · rw [show elRn.value = -1 from rfl]
    norm_num

/-- C7 (amended): for every resistor with nonzero value and a unique
element id in a successfully solved circuit, the returned current is
`(V(node of terminal 0) − V(node of terminal 1)) / value` — so
`current · value` recovers the node-voltage difference (Ohm's-law
round-trip) — and the returned power is `|I · I · value|`, which is
non-negative, and equals `|I|² · value` only when the value is
non-negative (the claim's unconditional `|I|² · value` fails for
negative resistance). -/
theorem C7_resistor_ohm_power :
    ∀ (e : List CircuitElement) (w : List Wire) (r : CircuitElement),
      solveCircuit e w ≠ emptyResult → r ∈ e → r.type = ElementType.Resistor →
      (e.map fun el => el.id).Nodup → r.value ≠ 0 →
      List.lookup r.id (solveCircuit e w).elementCurrents =
        some (resistorCurrent (extractNodes e w) (solveCircuit e w).nodeVoltages r) ∧
      List.lookup r.id (solveCircuit e w).elementPower =
        some |resistorCurrent (extractNodes e w) (solveCircuit e w).nodeVoltages r *
          resistorCurrent (extractNodes e w) (solveCircuit e w).nodeVoltages r *
          r.value| ∧
      resistorCurrent (extractNodes e w) (solveCircuit e w).nodeVoltages r *
          r.value =
        nvGet (solveCircuit e w).nodeVoltages
          (getNodeIndex (extractNodes e w) (termId r 0))
        - nvGet (solveCircuit e w).nodeVoltages
          (getNodeIndex (extractNodes e w) (termId r 1)) ∧
      (0:ℚ) ≤ |resistorCurrent (extractNodes e w) (solveCircuit e w).nodeVoltages r *
        resistorCurrent (extractNodes e w) (solveCircuit e w).nodeVoltages r *
        r.value| ∧
      (0 ≤ r.value →
        |resistorCurrent (extractNodes e w) (solveCircuit e w).nodeVoltages r *
          resistorCurrent (extractNodes e w) (solveCircuit e w).nodeVoltages r *
          r.value| =
        |resistorCurrent (extractNodes e w) (solveCircuit e w).nodeVoltages r| ^ 2 *
          r.value) := by
  intro e w r hne hr hty hnd hv
  obtain ⟨h1, h2, h3⟩ := solveCircuit_ne_empty_conditions e w hne
  have hres := solveCircuit_success e w h1 h2 h3
  rw [hres]
  refine ⟨?_, ?_, ?_, abs_nonneg _, ?_⟩
  · exact (foldl_deriveElem_lookup (extractNodes e w)
      (nodeVoltagesOf ((extractNodes e w).length - 1) (solvedX e w)) e r hr hty hnd
      (((vSourcesOf e).enum).foldl
        (deriveVS (extractNodes e w) ((extractNodes e w).length - 1) (solvedX e w)
          (nodeVoltagesOf ((extractNodes e w).length - 1) (solvedX e w))) ([], []))).1
  · exact (foldl_deriveElem_lookup (extractNodes e w)
      (nodeVoltagesOf ((extractNodes e w).length - 1) (solvedX e w)) e r hr hty hnd
      (((vSourcesOf e).enum).foldl
        (deriveVS (extractNodes e w) ((extractNodes e w).length - 1) (solvedX e w)
          (nodeVoltagesOf ((extractNodes e w).length - 1) (solvedX e w))) ([], []))).2
  · rw [resistorCurrent]
    exact div_mul_cancel₀ _ hv
  · intro hvpos
    rw [abs_mul, abs_mul, abs_of_nonneg hvpos, sq]

/-- Witness for the amended C7: example A's 2 Ω resistor, whose current
is `5/2` and power `25/2`. -/
theorem C7_resistor_ohm_power_witness :
    (List.lookup elR.id (solveCircuit elemsA wiresA).elementCurrents =
      some (resistorCurrent (extractNodes elemsA wiresA)
        (solveCircuit elemsA wiresA).nodeVoltages elR) ∧
    List.lookup elR.id (solveCircuit elemsA wiresA).elementPower =
      some |resistorCurrent (extractNodes elemsA wiresA)
          (solveCircuit elemsA wiresA).nodeVoltages elR *
        resistorCurrent (extractNodes elemsA wiresA)
          (solveCircuit elemsA wiresA).nodeVoltages elR * elR.value| ∧
    resistorCurrent (extractNodes elemsA wiresA)
        (solveCircuit elemsA wiresA).nodeVoltages elR * elR.value =
      nvGet (solveCircuit elemsA wiresA).nodeVoltages
        (getNodeIndex (extractNodes elemsA wiresA) (termId elR 0))
      - nvGet (solveCircuit elemsA wiresA).nodeVoltages
        (getNodeIndex (extractNodes elemsA wiresA) (termId elR 1)) ∧
    (0:ℚ) ≤ |resistorCurrent (extractNodes elemsA wiresA)
        (solveCircuit elemsA wiresA).nodeVoltages elR *
      resistorCurrent (extractNodes elemsA wiresA)
        (solveCircuit elemsA wiresA).nodeVoltages elR * elR.value| ∧
    (0 ≤ elR.value →
      |resistorCurrent (extractNodes elemsA wiresA)
          (solveCircuit elemsA wiresA).nodeVoltages elR *
        resistorCurrent (extractNodes elemsA wiresA)
          (solveCircuit elemsA wiresA).nodeVoltages elR * elR.value| =
      |resistorCurrent (extractNodes elemsA wiresA)
          (solveCircuit elemsA wiresA).nodeVoltages elR| ^ 2 * elR.value)) :=
  C7_resistor_ohm_power elemsA wiresA elR exA_ne_empty (by decide) rfl
    (by decide) (by norm_num [show elR.value = 2 from rfl])
theorem mem_allTerminals (e : List CircuitElement) (el : CircuitElement)
    (t : Terminal) (hel : el ∈ e) (ht : t ∈ el.terminals) :
    t ∈ allTerminals e := by
  induction e with
  | nil => cases hel
  | cons a rest ih =>
    rcases List.mem_cons.mp hel with heq | hmem
    · subst heq
      exact List.mem_append.mpr (Or.inl ht)
    · exact List.mem_append.mpr (Or.inr (ih hmem))

/-- C9 counterexample: `"ghost"` is a terminal id absent from every node
of example A, so `getNodeIndex` yields `-1` — but the solved
`nodeVoltages` record has no entry at key `-1` (its keys are exactly `0`
and `1`): in the source, reading the voltage of an unresolved index is
`undefined` (NaN under arithmetic), not the `0` a ground-connected
terminal reads. -/
theorem C9_cex :
    (∀ n ∈ extractNodes elemsA wiresA,
      (n.terminals.any fun t => t.id = "ghost") = false) ∧
    getNodeIndex (extractNodes elemsA wiresA) "ghost" = -1 ∧
    List.lookup (-1) (solveCircuit elemsA wiresA).nodeVoltages = none ∧
    (solveCircuit elemsA wiresA).nodeVoltages.map Prod.fst = [0, 1] := by
  refine ⟨by decide, by decide, ?_, ?_⟩
  · rw [exA_result]
    rfl
  · rw [exA_result]
    rfl

/-- C9 (amended): inside `solveCircuit` the unresolved-terminal case
never arises for element terminals — every terminal of every element
is grouped into some node, so `getNodeIndex` is non-negative — and at
the matrix-assembly level an index of `-1` receives exactly the stamps
of the ground index `0`, namely none: every stamping helper treats `-1`
and `0` identically (both fail the `t > 0` guards). -/
theorem C9_unresolved_terminals :
    (∀ (e : List CircuitElement) (w : List Wire) (el : CircuitElement)
        (t : Terminal), el ∈ e → t ∈ el.terminals →
      0 ≤ getNodeIndex (extractNodes e w) t.id) ∧
    (∀ (A : Mat) (g : ℚ) (t2 : Int),
      resistorStamp A g (-1) t2 = resistorStamp A g 0 t2) ∧
    (∀ (A : Mat) (g : ℚ) (t1 : Int),
      resistorStamp A g t1 (-1) = resistorStamp A g t1 0) ∧
    (∀ (z : Vec) (v : ℚ) (tB : Int),
      currentSourceStamp z v (-1) tB = currentSourceStamp z v 0 tB) ∧
    (∀ (z : Vec) (v : ℚ) (tA : Int),
      currentSourceStamp z v tA (-1) = currentSourceStamp z v tA 0) ∧
    (∀ (A : Mat) (vIdx : ℕ) (n2 : Int),
      vsStampB A vIdx (-1) n2 = vsStampB A vIdx 0 n2) ∧
    (∀ (A : Mat) (vIdx : ℕ) (n1 : Int),
      vsStampB A vIdx n1 (-1) = vsStampB A vIdx n1 0) ∧
    (∀ (A : Mat) (vIdx : ℕ) (n2 : Int),
      vsStampC A vIdx (-1) n2 = vsStampC A vIdx 0 n2) ∧
    (∀ (A : Mat) (vIdx : ℕ) (n1 : Int),
      vsStampC A vIdx n1 (-1) = vsStampC A vIdx n1 0) ∧
    (∀ (A : Mat) (vIdx : ℕ) (gain : ℚ) (n2 : Int),
      vcvsStampC A vIdx gain (-1) n2 = vcvsStampC A vIdx gain 0 n2) ∧
    (∀ (A : Mat) (vIdx : ℕ) (gain : ℚ) (n1 : Int),
      vcvsStampC A vIdx gain n1 (-1) = vcvsStampC A vIdx gain n1 0) := by
  refine ⟨?_, ?_, ?_, ?_, ?_, ?_, ?_, ?_, ?_, ?_, ?_⟩
  · intro e w el t hel ht
    exact getNodeIndex_of_mem_terminal e w (mem_allTerminals e el t hel ht)
  · intro A g t2
    simp [resistorStamp]
  · intro A g t1
    simp [resistorStamp]
  · intro z v tB
    simp [currentSourceStamp]
  · intro z v tA
    simp [currentSourceStamp]
  · intro A vIdx n2
    simp [vsStampB]
  · intro A vIdx n1
    simp [vsStampB]
  · intro A vIdx n2
    simp [vsStampC]
  · intro A vIdx n1
    simp [vsStampC]
  · intro A vIdx gain n2
    simp [vcvsStampC]
  · intro A vIdx gain n1
    simp [vcvsStampC]

/-- Witness for the amended C9: terminal `s0` of the example-A source
resolves (to the ground node), and a resistor stamp with an unresolved
first index equals the stamp with a ground first index. -/
theorem C9_unresolved_terminals_witness :
    (0:Int) ≤ getNodeIndex (extractNodes elemsA wiresA) (Terminal.mk "s0").id ∧
    resistorStamp (fun _ _ => 0) 1 (-1) 1 = resistorStamp (fun _ _ => 0) 1 0 1 :=
  ⟨C9_unresolved_terminals.1 elemsA wiresA elV ⟨"s0"⟩ (by decide) (by decide),
   C9_unresolved_terminals.2.1 (fun _ _ => 0) 1 1⟩
/-! ## Key sets of the derived-quantity records -/

theorem recordSet_keys_of_any (r : List (String × ℚ)) (k : String) (v : ℚ)
    (h : r.any (fun q => q.1 = k) = true) :
    (recordSet r k v).map Prod.fst = r.map Prod.fst := by
  rw [recordSet, if_pos h, List.map_map]
  apply List.map_congr_left
  intro q hq
  by_cases hk : q.1 = k
  · show ((if q.1 = k then (k, v) else q) : String × ℚ).1 = q.1
    rw [if_pos hk, hk]
  · show ((if q.1 = k then (k, v) else q) : String × ℚ).1 = q.1
    rw [if_neg hk]

theorem recordSet_keys_of_not_any (r : List (String × ℚ)) (k : String) (v : ℚ)
    (h : r.any (fun q => q.1 = k) = false) :
    (recordSet r k v).map Prod.fst = r.map Prod.fst ++ [k] := by
  rw [recordSet, if_neg (Bool.eq_false_iff.mp h)]
  rw [List.map_append]
  rfl

/-- Key membership after a record write: the old keys plus the new
key. -/
theorem recordSet_keys_mem (r : List (String × ℚ)) (k : String) (v : ℚ)
    (q : String) :
    q ∈ (recordSet r k v).map Prod.fst ↔ q ∈ r.map Prod.fst ∨ q = k := by
  by_cases h : r.any (fun q2 => q2.1 = k) = true
  · rw [recordSet_keys_of_any r k v h]
    constructor
    · exact Or.inl
    · intro hq
      rcases hq with hq | hq
      · exact hq
      · subst hq
        rcases List.any_eq_true.mp h with ⟨p, hp, hpk⟩
        have : p.1 = q := of_decide_eq_true hpk
        exact this ▸ List.mem_map_of_mem Prod.fst hp
  · rw [recordSet_keys_of_not_any r k v (Bool.eq_false_iff.mpr h)]
    rw [List.mem_append, List.mem_singleton]

/-- A record write keeps the keys duplicate-free. -/
theorem recordSet_keys_nodup (r : List (String × ℚ)) (k : String) (v : ℚ)
    (h : (r.map Prod.fst).Nodup) :
    ((recordSet r k v).map Prod.fst).Nodup := by
  by_cases ha : r.any (fun q2 => q2.1 = k) = true
  · rw [recordSet_keys_of_any r k v ha]
    exact h
  · rw [recordSet_keys_of_not_any r k v (Bool.eq_false_iff.mpr ha)]
    rw [List.nodup_append]
    refine ⟨h, List.nodup_singleton k, ?_⟩
    intro q hq hk
    rw [List.mem_singleton] at hk
    subst hk
    rcases List.mem_map.mp hq with ⟨p, hp, hpk⟩
    have := List.any_eq_false.mp (Bool.eq_false_iff.mpr ha) p hp
    simp only [decide_eq_true_eq] at this
    exact this hpk
/-- A `deriveVS` step adds exactly the source's id to both records'
key sets. -/
theorem deriveVS_keys_mem (nodes : List ElectricalNode) (numNodes : ℕ)
    (xf : ℕ → ℚ) (nv : List (Int × ℚ))
    (acc : List (String × ℚ) × List (String × ℚ)) (p : ℕ × CircuitElement)
    (q : String) :
    (q ∈ (deriveVS nodes numNodes xf nv acc p).1.map Prod.fst ↔
      q ∈ acc.1.map Prod.fst ∨ q = p.2.id) ∧
    (q ∈ (deriveVS nodes numNodes xf nv acc p).2.map Prod.fst ↔
      q ∈ acc.2.map Prod.fst ∨ q = p.2.id) := by
  exact ⟨recordSet_keys_mem _ _ _ _, recordSet_keys_mem _ _ _ _⟩

/-- A `deriveElem` step adds the element's id to both key sets when the
element is a resistor or a current source, and nothing otherwise. -/
theorem deriveElem_keys_mem (nodes : List ElectricalNode) (nv : List (Int × ℚ))
    (acc : List (String × ℚ) × List (String × ℚ)) (el : CircuitElement)
    (q : String) :
    (q ∈ (deriveElem nodes nv acc el).1.map Prod.fst ↔
      q ∈ acc.1.map Prod.fst ∨
        ((el.type = ElementType.Resistor ∨ el.type = ElementType.CurrentSource) ∧
          q = el.id)) ∧
    (q ∈ (deriveElem nodes nv acc el).2.map Prod.fst ↔
      q ∈ acc.2.map Prod.fst ∨
        ((el.type = ElementType.Resistor ∨ el.type = ElementType.CurrentSource) ∧
          q = el.id)) := by
  cases hty : el.type with
  | Resistor =>
    simp only [deriveElem, hty]
    constructor
    · rw [recordSet_keys_mem]
      simp
    · rw [recordSet_keys_mem]
      simp
  | CurrentSource =>
    simp only [deriveElem, hty]
    constructor
    · rw [recordSet_keys_mem]
      simp
    · rw [recordSet_keys_mem]
      simp
  | VoltageSource =>
    simp only [deriveElem, hty]
    simp
  | VCVS =>
    simp only [deriveElem, hty]
    simp

/-- Key membership after the whole voltage-source loop. -/
theorem foldl_deriveVS_keys_mem (nodes : List ElectricalNode) (numNodes : ℕ)
    (xf : ℕ → ℚ) (nv : List (Int × ℚ)) (l : List (ℕ × CircuitElement))
    (acc : List (String × ℚ) × List (String × ℚ)) (q : String) :
    (q ∈ (l.foldl (deriveVS nodes numNodes xf nv) acc).1.map Prod.fst ↔
      q ∈ acc.1.map Prod.fst ∨ ∃ p ∈ l, q = p.2.id) ∧
    (q ∈ (l.foldl (deriveVS nodes numNodes xf nv) acc).2.map Prod.fst ↔
      q ∈ acc.2.map Prod.fst ∨ ∃ p ∈ l, q = p.2.id) := by
  induction l generalizing acc with
  | nil => simp
  | cons p rest ih =>
    rw [List.foldl_cons]
    have hstep := deriveVS_keys_mem nodes numNodes xf nv acc p q
    have hrest := ih (deriveVS nodes numNodes xf nv acc p)
    constructor
    · rw [hrest.1, hstep.1, List.exists_mem_cons_iff]
      exact or_assoc
    · rw [hrest.2, hstep.2, List.exists_mem_cons_iff]
      exact or_assoc

/-- Key membership after the whole element loop. -/
theorem foldl_deriveElem_keys_mem (nodes : List ElectricalNode)
    (nv : List (Int × ℚ)) (l : List CircuitElement)
    (acc : List (String × ℚ) × List (String × ℚ)) (q : String) :
    (q ∈ (l.foldl (deriveElem nodes nv) acc).1.map Prod.fst ↔
      q ∈ acc.1.map Prod.fst ∨ ∃ el ∈ l,
        (el.type = ElementType.Resistor ∨ el.type = ElementType.CurrentSource) ∧
          q = el.id) ∧
    (q ∈ (l.foldl (deriveElem nodes nv) acc).2.map Prod.fst ↔
      q ∈ acc.2.map Prod.fst ∨ ∃ el ∈ l,
        (el.type = ElementType.Resistor ∨ el.type = ElementType.CurrentSource) ∧
          q = el.id) := by
  induction l generalizing acc with
  | nil => simp
  | cons el rest ih =>
    rw [List.foldl_cons]
    have hstep := deriveElem_keys_mem nodes nv acc el q
    have hrest := ih (deriveElem nodes nv acc el)
    constructor
    · rw [hrest.1, hstep.1, List.exists_mem_cons_iff]
      exact or_assoc
    · rw [hrest.2, hstep.2, List.exists_mem_cons_iff]
      exact or_assoc

/-- The voltage-source loop keeps both key sets duplicate-free. -/
theorem foldl_deriveVS_keys_nodup (nodes : List ElectricalNode) (numNodes : ℕ)
    (xf : ℕ → ℚ) (nv : List (Int × ℚ)) (l : List (ℕ × CircuitElement))
    (acc : List (String × ℚ) × List (String × ℚ))
    (h1 : (acc.1.map Prod.fst).Nodup) (h2 : (acc.2.map Prod.fst).Nodup) :
    ((l.foldl (deriveVS nodes numNodes xf nv) acc).1.map Prod.fst).Nodup ∧
    ((l.foldl (deriveVS nodes numNodes xf nv) acc).2.map Prod.fst).Nodup := by
  induction l generalizing acc with
  | nil => exact ⟨h1, h2⟩
  | cons p rest ih =>
    rw [List.foldl_cons]
    exact ih (deriveVS nodes numNodes xf nv acc p)
      (recordSet_keys_nodup _ _ _ h1) (recordSet_keys_nodup _ _ _ h2)

/-- The element loop keeps both key sets duplicate-free. -/
theorem foldl_deriveElem_keys_nodup (nodes : List ElectricalNode)
    (nv : List (Int × ℚ)) (l : List CircuitElement)
    (acc : List (String × ℚ) × List (String × ℚ))
    (h1 : (acc.1.map Prod.fst).Nodup) (h2 : (acc.2.map Prod.fst).Nodup) :
    ((l.foldl (deriveElem nodes nv) acc).1.map Prod.fst).Nodup ∧
    ((l.foldl (deriveElem nodes nv) acc).2.map Prod.fst).Nodup := by
  induction l generalizing acc with
  | nil => exact ⟨h1, h2⟩
  | cons el rest ih =>
    rw [List.foldl_cons]
    refine ih (deriveElem nodes nv acc el) ?_ ?_
    · cases hty : el.type with
      | Resistor =>
        simp only [deriveElem, hty]
        exact recordSet_keys_nodup _ _ _ h1
      | CurrentSource =>
        simp only [deriveElem, hty]
        exact recordSet_keys_nodup _ _ _ h1
      | VoltageSource =>
        simp only [deriveElem, hty]
        exact h1
      | VCVS =>
        simp only [deriveElem, hty]
        exact h1
    · cases hty : el.type with
      | Resistor =>
        simp only [deriveElem, hty]
        exact recordSet_keys_nodup _ _ _ h2
      | CurrentSource =>
        simp only [deriveElem, hty]
        exact recordSet_keys_nodup _ _ _ h2
      | VoltageSource =>
        simp only [deriveElem, hty]
        exact h2
      | VCVS =>
        simp only [deriveElem, hty]
        exact h2

theorem exists_enumFrom_iff (l : List CircuitElement) (s : ℕ) (k : String) :
    (∃ p ∈ List.enumFrom s l, k = p.2.id) ↔ ∃ el ∈ l, k = el.id := by
  induction l generalizing s with
  | nil => simp [List.enumFrom]
  | cons a rest ih =>
    rw [List.enumFrom]
    rw [List.exists_mem_cons_iff, List.exists_mem_cons_iff, ih (s + 1)]

theorem mem_vSourcesOf_iff (e : List CircuitElement) (el : CircuitElement) :
    el ∈ vSourcesOf e ↔ el ∈ e ∧
      (el.type = ElementType.VoltageSource ∨ el.type = ElementType.VCVS) := by
  rw [vSourcesOf, List.mem_filter]
  simp

/-- The keys of the `nodeVoltages` record are exactly `0 … n`. -/
theorem nodeVoltagesOf_keys (n : ℕ) (xf : ℕ → ℚ) :
    (nodeVoltagesOf n xf).map Prod.fst = (List.range (n + 1)).map Int.ofNat := by
  rw [nodeVoltagesOf, List.range_succ_eq_map]
  rw [List.map_cons, List.map_cons, List.map_map, List.map_map]
  rw [show ((0 : Int), (0 : ℚ)).1 = Int.ofNat 0 from rfl]
  congr 1
theorem id_cover_iff (e : List CircuitElement) (k : String) :
    ((∃ p ∈ (vSourcesOf e).enum, k = p.2.id) ∨
      ∃ el ∈ e, (el.type = ElementType.Resistor ∨
        el.type = ElementType.CurrentSource) ∧ k = el.id) ↔
    ∃ el ∈ e, k = el.id := by
  rw [show (vSourcesOf e).enum = List.enumFrom 0 (vSourcesOf e) from rfl,
    exists_enumFrom_iff]
  constructor
  · rintro (⟨el, hmem, hid⟩ | ⟨el, hmem, -, hid⟩)
    · exact ⟨el, ((mem_vSourcesOf_iff e el).mp hmem).1, hid⟩
    · exact ⟨el, hmem, hid⟩
  · rintro ⟨el, hmem, hid⟩
    cases hty : el.type with
    | Resistor => exact Or.inr ⟨el, hmem, Or.inl hty, hid⟩
    | CurrentSource => exact Or.inr ⟨el, hmem, Or.inr hty, hid⟩
    | VoltageSource =>
      exact Or.inl ⟨el, (mem_vSourcesOf_iff e el).mpr ⟨hmem, Or.inl hty⟩, hid⟩
    | VCVS =>
      exact Or.inl ⟨el, (mem_vSourcesOf_iff e el).mpr ⟨hmem, Or.inr hty⟩, hid⟩

/-- C10: in every successfully solved circuit the `elementCurrents` and
`elementPower` records carry exactly the element ids as keys — every
element of every kind gets an entry, each key at most once — and the
`nodeVoltages` record carries exactly the integer keys `0 … n` for the
`n` non-ground nodes. -/
theorem C10_result_keys :
    ∀ (e : List CircuitElement) (w : List Wire),
      solveCircuit e w ≠ emptyResult →
      (∀ k, k ∈ (solveCircuit e w).elementCurrents.map Prod.fst ↔
        ∃ el ∈ e, k = el.id) ∧
      (∀ k, k ∈ (solveCircuit e w).elementPower.map Prod.fst ↔
        ∃ el ∈ e, k = el.id) ∧
      ((solveCircuit e w).elementCurrents.map Prod.fst).Nodup ∧
      ((solveCircuit e w).elementPower.map Prod.fst).Nodup ∧
      (solveCircuit e w).nodeVoltages.map Prod.fst =
        (List.range ((extractNodes e w).length)).map Int.ofNat := by
  intro e w hne
  obtain ⟨h1, h2, h3⟩ := solveCircuit_ne_empty_conditions e w hne
  rw [solveCircuit_success e w h1 h2 h3]
  set nodes := extractNodes e w with hnodes
  set nv := nodeVoltagesOf (nodes.length - 1) (solvedX e w) with hnvdef
  set vsfold := ((vSourcesOf e).enum).foldl
    (deriveVS nodes (nodes.length - 1) (solvedX e w) nv) ([], []) with hvf
  have hvsnd := foldl_deriveVS_keys_nodup nodes (nodes.length - 1) (solvedX e w)
    nv ((vSourcesOf e).enum) ([], []) (by simp) (by simp)
  refine ⟨?_, ?_, ?_, ?_, ?_⟩
  · intro k
    have hm := (foldl_deriveElem_keys_mem nodes nv e vsfold k).1
    have hv := (foldl_deriveVS_keys_mem nodes (nodes.length - 1) (solvedX e w)
      nv ((vSourcesOf e).enum) ([], []) k).1
    rw [← hvf] at hv
    simp only [hm, hv, List.map_nil, List.not_mem_nil, false_or]
    exact id_cover_iff e k
  · intro k
    have hm := (foldl_deriveElem_keys_mem nodes nv e vsfold k).2
    have hv := (foldl_deriveVS_keys_mem nodes (nodes.length - 1) (solvedX e w)
      nv ((vSourcesOf e).enum) ([], []) k).2
    rw [← hvf] at hv
    simp only [hm, hv, List.map_nil, List.not_mem_nil, false_or]
    exact id_cover_iff e k
  · exact (foldl_deriveElem_keys_nodup nodes nv e vsfold hvsnd.1 hvsnd.2).1
  · exact (foldl_deriveElem_keys_nodup nodes nv e vsfold hvsnd.1 hvsnd.2).2
  · show nv.map Prod.fst = (List.range (nodes.length)).map Int.ofNat
    rw [hnvdef, nodeVoltagesOf_keys,
      show nodes.length - 1 + 1 = nodes.length from by omega]

/-- Witness for C10 at example A: membership of the two element ids,
duplicate-freeness, and the node-voltage keys `0, 1`. -/
theorem C10_result_keys_witness :
    ("V1" ∈ (solveCircuit elemsA wiresA).elementCurrents.map Prod.fst ↔
      ∃ el ∈ elemsA, "V1" = el.id) ∧
    ("R1" ∈ (solveCircuit elemsA wiresA).elementPower.map Prod.fst ↔
      ∃ el ∈ elemsA, "R1" = el.id) ∧
    ((solveCircuit elemsA wiresA).elementPower.map Prod.fst).Nodup ∧
    (solveCircuit elemsA wiresA).nodeVoltages.map Prod.fst =
      (List.range ((extractNodes elemsA wiresA).length)).map Int.ofNat :=
  ⟨(C10_result_keys elemsA wiresA exA_ne_empty).1 "V1",
   (C10_result_keys elemsA wiresA exA_ne_empty).2.1 "R1",
   (C10_result_keys elemsA wiresA exA_ne_empty).2.2.2.1,
   (C10_result_keys elemsA wiresA exA_ne_empty).2.2.2.2⟩
end Circuit
